import Mathlib

/-!
Verification development for the `types-extension` schema algebra
(sources: `src/basic.ts`, `src/union.ts`, `src/object.ts`).

The source library is written as TypeScript type-level operators.  We embed
it shallowly: a TypeScript type becomes a value of the inductive `Ty`
(primitives, `never`, callables, arrays, read-only arrays, object types with
per-property `optional`/`readonly` modifiers, and union types), and each
type operator of the source becomes a Lean function on `Ty`.  Union types
in TypeScript are sets: the smart constructor `mkUnion` flattens nested
unions, drops `never` members and removes duplicates (keeping the first
occurrence), exactly the normalisation the TypeScript checker performs when
it builds a union type.

Key-set operators (`Intersect`, `Substract`, `Complement` of `src/union.ts`)
are used by the object operators exclusively on unions of string literals
(`keyof T`), so they are embedded as functions on `List String`; `Extract`
on string-literal unions is list intersection and `Exclude` is list
difference.
-/

namespace TypesExt

/-- The primitive kinds of `src/basic.ts` (`Primitive`):
null, undefined, string, number, boolean, symbol. -/
inductive PrimKind where
  | pnull
  | pundefined
  | pstring
  | pnumber
  | pboolean
  | psymbol
deriving DecidableEq, Repr

mutual
/-- A TypeScript type, as manipulated by the source's operators.
`fn` is a callable shape (never decomposed by the deep transforms),
`arr`/`roarr` are `Array<elem>` / `ReadonlyArray<elem>`, `obj` is an object
type with an ordered property list, `union` is a union type. -/
inductive Ty where
  | prim (k : PrimKind)
  | never
  | fn
  | arr (elem : Ty)
  | roarr (elem : Ty)
  | obj (fs : Fields)
  | union (ms : TyList)
deriving DecidableEq, Repr

/-- An ordered list of named properties.  `opt` is the `?` modifier,
`ro` the `readonly` modifier, `ty` the declared property type. -/
inductive Fields where
  | nil
  | cons (name : String) (opt ro : Bool) (ty : Ty) (rest : Fields)
deriving DecidableEq, Repr

/-- A list of types (members of a union). -/
inductive TyList where
  | nil
  | cons (t : Ty) (rest : TyList)
deriving DecidableEq, Repr
end

/- Size of a type, used only to pick a sufficient fuel for the
assignability and conformance checkers. -/
mutual
def szTy : Ty → Nat
  | .prim _ => 1
  | .never => 1
  | .fn => 1
  | .arr e => 1 + szTy e
  | .roarr e => 1 + szTy e
  | .obj fs => 1 + szF fs
  | .union ms => 1 + szL ms
def szF : Fields → Nat
  | .nil => 1
  | .cons _ _ _ ty rest => 1 + szTy ty + szF rest
def szL : TyList → Nat
  | .nil => 1
  | .cons t rest => 1 + szTy t + szL rest
end

/-- List membership on `TyList` (by decidable equality). -/
def memT (x : Ty) : TyList → Bool
  | .nil => false
  | .cons t r => x == t || memT x r

/-- `allL p l`: every member of `l` satisfies `p`. -/
def allL (p : Ty → Bool) : TyList → Bool
  | .nil => true
  | .cons t r => p t && allL p r

/-- `anyL p l`: some member of `l` satisfies `p`. -/
def anyL (p : Ty → Bool) : TyList → Bool
  | .nil => false
  | .cons t r => p t || anyL p r

/-- Concatenation of member lists. -/
def appendT : TyList → TyList → TyList
  | .nil, l2 => l2
  | .cons t r, l2 => .cons t (appendT r l2)

/-- The list has at least two members. -/
def atLeast2 : TyList → Bool
  | .cons _ (.cons _ _) => true
  | _ => false

/-- No member is itself a union. -/
def notUnion : Ty → Bool
  | .union _ => false
  | _ => true

/-- No member is `never`. -/
def notNever : Ty → Bool
  | .never => false
  | _ => true

/-- The list has no duplicate members. -/
def nodupL : TyList → Bool
  | .nil => true
  | .cons t r => !memT t r && nodupL r

/-- The property names of an object type, in declaration order
(this is `keyof T` as a union of string literals). -/
def namesF : Fields → List String
  | .nil => []
  | .cons n _ _ _ rest => n :: namesF rest

/-- Look a property up by name: returns its `(optional, readonly, type)`. -/
def lookupF : Fields → String → Option (Bool × Bool × Ty)
  | .nil, _ => none
  | .cons n o r ty rest, m => if n == m then some (o, r, ty) else lookupF rest m

/-- Keep the properties whose name satisfies `p` (modifiers untouched). -/
def filterF (p : String → Bool) : Fields → Fields
  | .nil => .nil
  | .cons n o r ty rest =>
      if p n then .cons n o r ty (filterF p rest) else filterF p rest

/- ## Key-Set Algebra (`src/union.ts`), at string-literal unions

The source operators are generic over union types; every use by the object
operators instantiates them at `keyof` unions, i.e. finite sets of string
literals, embedded here as `List String`. -/

/-- `Intersect<A, B> = Extract<A, B>`: the members of `A` assignable to `B`;
at string-literal unions, the names present in both. -/
def Intersect (a b : List String) : List String :=
  a.filter (fun n => b.contains n)

/-- `Substract<A, B> = Exclude<A, B>`: the members of `A` not assignable to
`B`; at string-literal unions, the names of `A` absent from `B`. -/
def Substract (a b : List String) : List String :=
  a.filter (fun n => !(b.contains n))

/-- `Complement<A, A1 extends A> = Substract<A, A>` — exactly as written in
`src/union.ts` line 35: the second argument is received but the body
subtracts `A` from itself. -/
def Complement (a a1 : List String) : List String :=
  Substract a a

/- ## Union normalisation

TypeScript unions are sets: building `A | B` flattens nested unions, drops
`never` and removes duplicate constituents.  `mkUnion` performs this
normalisation; an empty union is `never` and a singleton union is its sole
member. -/

mutual
/-- Flatten away nested union nodes, leaving a list of non-union members. -/
def flattenU : TyList → TyList
  | .nil => .nil
  | .cons t r => appendT (flat1 t) (flattenU r)
/-- The member list a single type contributes to an enclosing union. -/
def flat1 : Ty → TyList
  | .union ms => flattenU ms
  | t => .cons t .nil
end

/-- Drop `never` members (`X | never = X`). -/
def dropNever : TyList → TyList
  | .nil => .nil
  | .cons t r => if t == Ty.never then dropNever r else .cons t (dropNever r)

/-- Remove duplicates, keeping first occurrences; `seen` accumulates the
members already emitted. -/
def dedupAux (seen : TyList) : TyList → TyList
  | .nil => .nil
  | .cons t r =>
      if memT t seen then dedupAux seen r
      else .cons t (dedupAux (.cons t seen) r)

/-- Remove duplicate members, keeping first occurrences. -/
def dedupT (l : TyList) : TyList := dedupAux .nil l

/-- Build the union of the given types, normalised the way the TypeScript
checker normalises union types. -/
def mkUnion (l : TyList) : Ty :=
  match dedupT (dropNever (flattenU l)) with
  | .nil => .never
  | .cons t .nil => t
  | .cons a (.cons b r) => .union (.cons a (.cons b r))

/-- A well-formed member list of a union node: at least two members, none
a union, none `never`, no duplicates. -/
def structNorm (ms : TyList) : Bool :=
  atLeast2 ms && allL notUnion ms && allL notNever ms && nodupL ms

/- ## Assignability (`extends`)

The source relies on the language's structural assignability relation
(`A extends B`) inside `Extract`/`Exclude` and the conditional types.  We
model it as a fuel-bounded structural check: identical types are assignable;
`never` is assignable to everything; a union is assignable iff every member
is; a type is assignable to a union iff it is assignable to some member;
arrays are covariant and assignable to read-only arrays; an object type is
assignable to another iff every (required) target property is present with
an assignable type.  A non-object type other than `null`/`undefined` is
assignable to the empty object type (in the language every non-nullish
value satisfies the empty object type, while the weak-type check rejects
non-objects against object types with properties).  The fuel is seeded from the sizes
of the two types, which bounds the recursion depth of the check. -/

mutual
def subTyF : Nat → Ty → Ty → Bool
  | 0, _, _ => false
  | n + 1, a, b =>
      a == b ||
      match a, b with
      | .never, _ => true
      | .union ms, u => subAllF n ms u
      | t, .union ns => subAnyF n t ns
      | .prim k, .prim k2 => k == k2
      | .fn, .fn => true
      | .arr e, .arr e2 => subTyF n e e2
      | .arr e, .roarr e2 => subTyF n e e2
      | .roarr e, .roarr e2 => subTyF n e e2
      | .obj fs, .obj gs => subFieldsF n fs gs
      | .prim .pnull, .obj _ => false
      | .prim .pundefined, .obj _ => false
      | .prim _, .obj .nil => true
      | .fn, .obj .nil => true
      | .arr _, .obj .nil => true
      | .roarr _, .obj .nil => true
      | _, _ => false
def subAllF : Nat → TyList → Ty → Bool
  | _, .nil, _ => true
  | 0, .cons _ _, _ => false
  | n + 1, .cons t r, u => subTyF n t u && subAllF n r u
def subAnyF : Nat → Ty → TyList → Bool
  | _, _, .nil => false
  | 0, _, .cons _ _ => false
  | n + 1, t, .cons u r => subTyF n t u || subAnyF n t r
def subFieldsF : Nat → Fields → Fields → Bool
  | _, _, .nil => true
  | 0, _, .cons _ _ _ _ _ => false
  | n + 1, fs, .cons m o2 _ ty2 rest =>
      (match lookupF fs m with
       | some (o1, _, ty1) => (o2 || !o1) && subTyF n ty1 ty2
       | none => o2) && subFieldsF n fs rest
end

/-- `a extends b`, with fuel large enough for the structural descent. -/
def subTy (a b : Ty) : Bool := subTyF (szTy a + szTy b + 1) a b

mutual
/-- `Intersect<A, B> = Extract<A, B>` of `src/union.ts` at arbitrary types
(the instantiation `MergeOverride`/`Merge` actually use): the members of
`A` assignable to `B`, i.e. `A extends B ? A : never` distributed over the
members of `A`. -/
def IntersectTy (a : Ty) (b : Ty) : Ty :=
  match a with
  | .union ms => mkUnion (extractL ms b)
  | t => if subTy t b then t else .never
def extractL : TyList → Ty → TyList
  | .nil, _ => .nil
  | .cons t r, b => .cons (IntersectTy t b) (extractL r b)
end

/-- Drop the property named `m` (used when merging intersection members). -/
def removeF (m : String) : Fields → Fields
  | .nil => .nil
  | .cons n o r ty rest =>
      if n == m then removeF m rest else .cons n o r ty (removeF m rest)

mutual
/-- The intersection type `A & B`, in the cases the modelled operators
produce: `never` absorbs, two object types merge their property lists
(a property present in both keeps the intersection of its types and is
optional only if optional in both), identical types collapse.  Other
combinations do not arise from the modelled operators and are approximated
by `never`. -/
def interTy : Ty → Ty → Ty
  | .never, _ => .never
  | _, .never => .never
  | .obj fs, .obj gs => .obj (interFields fs gs)
  | a, b => if a == b then a else .never
def interFields : Fields → Fields → Fields
  | .nil, gs => gs
  | .cons n o r ty rest, gs =>
      match lookupF gs n with
      | some (o2, r2, ty2) =>
          .cons n (o && o2) (r || r2) (interTy ty ty2) (interFields rest (removeF n gs))
      | none => .cons n o r ty (interFields rest gs)
end

/-- `keyof T` as a list of string literals.  Only object types have named
properties in the schema model; the modelled operators apply `keyof` to
object types (and to `never`, whose property set is empty here). -/
def keyofTy : Ty → List String
  | .obj fs => namesF fs
  | _ => []

/-- `Pick<T, K>`: the object type with the properties of `T` named in `K`,
modifiers preserved.  `Pick` over `never` collapses to `never` (mapped
types distribute over `never`).  Over any other non-record schema the
model's key universe is empty, so the only selection that arises is the
empty one, and `Pick` of no properties is the empty object type. -/
def PickTy (t : Ty) (ks : List String) : Ty :=
  match t with
  | .obj fs => .obj (filterF (fun n => ks.contains n) fs)
  | .never => .never
  | _ => .obj .nil

/-- Is the type an object (Record) schema? -/
def isObjTy : Ty → Bool
  | .obj _ => true
  | _ => false

mutual
/-- `X extends object`: objects, arrays and callables are object-like;
`never` is assignable to anything; a union is object-like iff every member
is; primitives are not. -/
def isObjectLike : Ty → Bool
  | .obj _ => true
  | .arr _ => true
  | .roarr _ => true
  | .fn => true
  | .never => true
  | .union ms => isObjectLikeL ms
  | .prim _ => false
def isObjectLikeL : TyList → Bool
  | .nil => true
  | .cons t r => isObjectLike t && isObjectLikeL r
end

/- ## Error taxonomy (spec section 7) -/

/-- `unknownKey`: a key-based projection referenced a property name absent
from the source type's `keyof` universe (the violated `KeyType extends
keyof ObjectType` constraint).  `structuralPrecondition`: an `extends
object`-constrained parameter received a schema that is not object-like
(a primitive). -/
inductive SchemaError where
  | unknownKey (name : String)
  | structuralPrecondition
deriving DecidableEq, Repr

/- ## Projection Engine (`src/object.ts`) -/

/-- `PickByKey<ObjectType, KeyType extends keyof ObjectType> =
Pick<ObjectType, KeyType>`.  The only constraint is on `KeyType`: a
requested name absent from the source type's `keyof` universe is a
violation (`unknownKey`).  There is no `extends object` constraint on
`ObjectType`: off records the `keyof` universe is empty, so the empty
selection is accepted (and yields the empty pick). -/
def PickByKey (t : Ty) (ks : List String) : Except SchemaError Ty :=
  match ks.find? (fun n => !((keyofTy t).contains n)) with
  | some n => .error (.unknownKey n)
  | none => .ok (PickTy t ks)

/-- `OmitByKey<ObjectType, KeyType extends keyof ObjectType> =
Pick<ObjectType, Exclude<keyof ObjectType, KeyType>>`.  Note that the
source constrains `KeyType extends keyof ObjectType` here as well: an
unknown name in `ks` is a violation, exactly as for `PickByKey`.  Like
`PickByKey` it has no constraint on `ObjectType` itself. -/
def OmitByKey (t : Ty) (ks : List String) : Except SchemaError Ty :=
  match ks.find? (fun n => !((keyofTy t).contains n)) with
  | some n => .error (.unknownKey n)
  | none => .ok (PickTy t (Substract (keyofTy t) ks))

/-- Keep the properties whose declared type satisfies `p`. -/
def filterByTy (p : Ty → Bool) : Fields → Fields
  | .nil => .nil
  | .cons n o r ty rest =>
      if p ty then .cons n o r ty (filterByTy p rest) else filterByTy p rest

/-- `PickByValue<ObjectType, ValueType>`: keep the properties whose type is
assignable to `ValueType`.  Both parameters are unconstrained, so the
operation is total: off records (and off `never`) the computed key union
is empty and the pick is the empty object type. -/
def PickByValue (t : Ty) (v : Ty) : Ty :=
  match t with
  | .obj fs => .obj (filterByTy (fun ty => subTy ty v) fs)
  | .never => .never
  | _ => .obj .nil

/-- `OmitByValue<ObjectType, ValueType>`: drop the properties whose type is
assignable to `ValueType`.  Unconstrained and total, like `PickByValue`. -/
def OmitByValue (t : Ty) (v : Ty) : Ty :=
  match t with
  | .obj fs => .obj (filterByTy (fun ty => !(subTy ty v)) fs)
  | .never => .never
  | _ => .obj .nil

/- ## Merge Engine (`src/object.ts`) -/

/-- Body of `ObjectSubtract<T, U> = Pick<T, Substract<keyof T, keyof U>>`. -/
def objectSubtractC (t u : Ty) : Ty :=
  PickTy t (Substract (keyofTy t) (keyofTy u))

/-- Body of `ObjectIntersect<T, U> = Pick<T, Intersect<keyof T, keyof U>>`. -/
def objectIntersectC (t u : Ty) : Ty :=
  PickTy t (Intersect (keyofTy t) (keyofTy u))

/-- `ObjectSubtract<T extends object, U extends object>`: the `extends
object` constraints reject primitive inputs; arrays and callables are
object-like and are accepted. -/
def ObjectSubtract (t u : Ty) : Except SchemaError Ty :=
  if isObjectLike t && isObjectLike u then .ok (objectSubtractC t u)
  else .error .structuralPrecondition

/-- `ObjectIntersect<T extends object, U extends object>`. -/
def ObjectIntersect (t u : Ty) : Except SchemaError Ty :=
  if isObjectLike t && isObjectLike u then .ok (objectIntersectC t u)
  else .error .structuralPrecondition

/-- `ObjectComplement<T extends T1, T1 extends object> =
Pick<T, Complement<keyof T, keyof T1>>` (inheriting `Complement`'s
behaviour from `src/union.ts`).  Only `T1` carries the `extends object`
constraint; `T` is constrained to be assignable to `T1` (both violated
constraints are reported as a structural precondition failure). -/
def ObjectComplement (t t1 : Ty) : Except SchemaError Ty :=
  if subTy t t1 && isObjectLike t1 then
    .ok (PickTy t (Complement (keyofTy t) (keyofTy t1)))
  else .error .structuralPrecondition

/-- `MergeOverride<T extends object, U extends object,
I = ObjectSubtract<T, U> & Intersect<U, T>> = Pick<I, keyof I>`.
Note the source applies the union-level `Intersect` (i.e. `Extract`) to the
two object types, not `ObjectIntersect`. -/
def MergeOverride (t u : Ty) : Except SchemaError Ty :=
  if isObjectLike t && isObjectLike u then
    let i := interTy (objectSubtractC t u) (IntersectTy u t)
    .ok (PickTy i (keyofTy i))
  else .error .structuralPrecondition

/-- `Merge<T extends object, U extends object,
I = ObjectSubtract<T, U> & Intersect<U, T> & ObjectSubtract<U, T>> =
Pick<I, keyof I>`.  As in `MergeOverride`, the middle component is the
union-level `Intersect` applied to object types. -/
def Merge (t u : Ty) : Except SchemaError Ty :=
  if isObjectLike t && isObjectLike u then
    let i := interTy (interTy (objectSubtractC t u) (IntersectTy u t))
               (objectSubtractC u t)
    .ok (PickTy i (keyofTy i))
  else .error .structuralPrecondition

/-- Build `{[K in ks]?: never}` — the property list of `_Without`. -/
def neverFields : List String → Fields
  | [] => .nil
  | n :: r => .cons n true false .never (neverFields r)

/-- `_Without<FirstType, SecondType> =
{[KeyType in Exclude<keyof FirstType, keyof SecondType>]?: never}`. -/
def WithoutTy (f s : Ty) : Ty :=
  .obj (neverFields (Substract (keyofTy f) (keyofTy s)))

/-- `MergeExclusive<FirstType, SecondType> = (FirstType | SecondType)
extends object ? (_Without<FirstType, SecondType> & SecondType) |
(_Without<SecondType, FirstType> & FirstType) : FirstType | SecondType`.
Note the non-object fallback returns the plain union — this operation is
total and has no error case. -/
def MergeExclusive (f s : Ty) : Ty :=
  if isObjectLike f && isObjectLike s then
    mkUnion (.cons (interTy (WithoutTy f s) s)
      (.cons (interTy (WithoutTy s f) f) .nil))
  else
    mkUnion (.cons f (.cons s .nil))

/- ## Null/undefined strippers (`src/basic.ts` and the TS standard library) -/

mutual
/-- `NonUndefined<A> = A extends undefined ? never : A`, distributed over
the members of `A`. -/
def NonUndefined : Ty → Ty
  | .prim .pundefined => .never
  | .never => .never
  | .union ms => mkUnion (nonUndefinedL ms)
  | t => t
def nonUndefinedL : TyList → TyList
  | .nil => .nil
  | .cons t r => .cons (NonUndefined t) (nonUndefinedL r)
end

mutual
/-- `NonNullable<A> = A extends null | undefined ? never : A`, distributed
over the members of `A`. -/
def NonNullableTy : Ty → Ty
  | .prim .pundefined => .never
  | .prim .pnull => .never
  | .never => .never
  | .union ms => mkUnion (nonNullableL ms)
  | t => t
def nonNullableL : TyList → TyList
  | .nil => .nil
  | .cons t r => .cons (NonNullableTy t) (nonNullableL r)
end

/- ## Deep Transform Engine (`src/object.ts`)

Each transform is a conditional type
`T extends (...args: any[]) => any ? T : T extends any[] ? Array-rule :
T extends object ? Object-rule : Leaf-rule`, distributing over unions of
the naked parameter (hence the `union` arm maps the transform over the
members and `never` maps to `never`).  A `ReadonlyArray` does not match
`T extends any[]`, so it falls into the object arm, where a homomorphic
mapped type over an array-like maps the element type (and applies the
`?`/`-?` modifier to the element). -/

mutual
/-- `DeepReadonly<T>`: `_DeepReadonlyArray` turns arrays into read-only
arrays of the transformed element; `_DeepReadonlyObject` marks every
property `readonly` and recurses; leaves pass through. -/
def DeepReadonlyTy : Ty → Ty
  | .fn => .fn
  | .arr e => .roarr (DeepReadonlyTy e)
  | .roarr e => .roarr (DeepReadonlyTy e)
  | .obj fs => .obj (deepReadonlyF fs)
  | .union ms => mkUnion (deepReadonlyL ms)
  | .never => .never
  | .prim k => .prim k
def deepReadonlyF : Fields → Fields
  | .nil => .nil
  | .cons n o _ ty rest => .cons n o true (DeepReadonlyTy ty) (deepReadonlyF rest)
def deepReadonlyL : TyList → TyList
  | .nil => .nil
  | .cons t r => .cons (DeepReadonlyTy t) (deepReadonlyL r)
end

mutual
/-- `DeepPartial<T>`: `_DeepPartialArray` keeps arrays (elements
transformed), `_DeepPartialObject` makes every property optional and
recurses, and a non-object leaf becomes `T | undefined`.  A read-only
array falls into the object arm, whose `?` modifier over an array-like
adds `undefined` to the element type. -/
def DeepPartialTy : Ty → Ty
  | .fn => .fn
  | .arr e => .arr (DeepPartialTy e)
  | .roarr e =>
      .roarr (mkUnion (.cons (DeepPartialTy e) (.cons (.prim .pundefined) .nil)))
  | .obj fs => .obj (deepPartialF fs)
  | .union ms => mkUnion (deepPartialL ms)
  | .never => .never
  | .prim k => mkUnion (.cons (.prim k) (.cons (.prim .pundefined) .nil))
def deepPartialF : Fields → Fields
  | .nil => .nil
  | .cons n _ r ty rest => .cons n true r (DeepPartialTy ty) (deepPartialF rest)
def deepPartialL : TyList → TyList
  | .nil => .nil
  | .cons t r => .cons (DeepPartialTy t) (deepPartialL r)
end

mutual
/-- `DeepRequired<T>`: arrays recurse through
`DeepRequired<NonUndefined<T[number]>>`, objects drop the `?` modifier and
recurse through `DeepRequired<NonUndefined<T[P]>>`, leaves pass through
(in particular `DeepRequired<undefined> = undefined` at top level). -/
def DeepRequiredTy : Ty → Ty
  | .fn => .fn
  | .arr e => .arr (deepRequiredNU e)
  | .roarr e => .roarr (deepRequiredNU e)
  | .obj fs => .obj (deepRequiredF fs)
  | .union ms => mkUnion (deepRequiredL ms)
  | .never => .never
  | .prim k => .prim k
/-- The composite `DeepRequired<NonUndefined<X>>` evaluated member-wise:
both conditionals distribute over the members of `X`, so an `undefined`
member is dropped (`NonUndefined` maps it to `never`) and every other
member proceeds through `DeepRequired`. -/
def deepRequiredNU : Ty → Ty
  | .prim .pundefined => .never
  | .prim k => .prim k
  | .never => .never
  | .fn => .fn
  | .arr e => .arr (deepRequiredNU e)
  | .roarr e => .roarr (deepRequiredNU e)
  | .obj fs => .obj (deepRequiredF fs)
  | .union ms => mkUnion (deepRequiredNUL ms)
def deepRequiredF : Fields → Fields
  | .nil => .nil
  | .cons n _ r ty rest => .cons n false r (deepRequiredNU ty) (deepRequiredF rest)
def deepRequiredL : TyList → TyList
  | .nil => .nil
  | .cons t r => .cons (DeepRequiredTy t) (deepRequiredL r)
def deepRequiredNUL : TyList → TyList
  | .nil => .nil
  | .cons t r => .cons (deepRequiredNU t) (deepRequiredNUL r)
end

mutual
/-- `DeepNonNullable<T>`: arrays recurse through
`DeepNonNullable<NonNullable<T[number]>>`, objects apply the `-?` modifier
(dropping optionality) and recurse through `DeepNonNullable<NonNullable<T[P]>>`,
leaves pass through. -/
def DeepNonNullableTy : Ty → Ty
  | .fn => .fn
  | .arr e => .arr (deepNonNullableNN e)
  | .roarr e => .roarr (deepNonNullableNN e)
  | .obj fs => .obj (deepNonNullableF fs)
  | .union ms => mkUnion (deepNonNullableL ms)
  | .never => .never
  | .prim k => .prim k
/-- The composite `DeepNonNullable<NonNullable<X>>` evaluated member-wise:
`null` and `undefined` members are dropped, every other member proceeds
through `DeepNonNullable`. -/
def deepNonNullableNN : Ty → Ty
  | .prim .pundefined => .never
  | .prim .pnull => .never
  | .prim k => .prim k
  | .never => .never
  | .fn => .fn
  | .arr e => .arr (deepNonNullableNN e)
  | .roarr e => .roarr (deepNonNullableNN e)
  | .obj fs => .obj (deepNonNullableF fs)
  | .union ms => mkUnion (deepNonNullableNNL ms)
def deepNonNullableF : Fields → Fields
  | .nil => .nil
  | .cons n _ r ty rest =>
      .cons n false r (deepNonNullableNN ty) (deepNonNullableF rest)
def deepNonNullableL : TyList → TyList
  | .nil => .nil
  | .cons t r => .cons (DeepNonNullableTy t) (deepNonNullableL r)
def deepNonNullableNNL : TyList → TyList
  | .nil => .nil
  | .cons t r => .cons (deepNonNullableNN t) (deepNonNullableNNL r)
end

/- ## Normalisation infrastructure lemmas -/

theorem band_mp {a b : Bool} (h : (a && b) = true) : a = true ∧ b = true := by
  cases a <;> cases b <;> simp_all

theorem band_mpr {a b : Bool} (h1 : a = true) (h2 : b = true) :
    (a && b) = true := by
  simp [h1, h2]

theorem bor_mp {a b : Bool} (h : (a || b) = true) : a = true ∨ b = true := by
  cases a <;> cases b <;> simp_all

theorem bor_eq_false {a b : Bool} (h : (a || b) = false) :
    a = false ∧ b = false := by
  cases a <;> cases b <;> simp_all

theorem bool_eq_false {a : Bool} (h : ¬(a = true)) : a = false := by
  cases a <;> simp_all

theorem bor_mpr_left {a b : Bool} (h : a = true) : (a || b) = true := by
  simp [h]

theorem bor_mpr_right {a b : Bool} (h : b = true) : (a || b) = true := by
  simp [h]

theorem allL_append (p : Ty → Bool) :
    (a : TyList) → ∀ b, allL p (appendT a b) = (allL p a && allL p b)
  | .nil, b => by simp [appendT, allL]
  | .cons t r, b => by
      simp [appendT, allL, allL_append p r b, Bool.and_assoc]

theorem anyL_append (p : Ty → Bool) :
    (a : TyList) → ∀ b, anyL p (appendT a b) = (anyL p a || anyL p b)
  | .nil, b => by simp [appendT, anyL]
  | .cons t r, b => by
      simp [appendT, anyL, anyL_append p r b, Bool.or_assoc]

/-- For a non-union type, `flat1` is the singleton list. -/
theorem flat1_eq_single : (t : Ty) → notUnion t = true → flat1 t = .cons t .nil
  | .prim _, _ => rfl
  | .never, _ => rfl
  | .fn, _ => rfl
  | .arr _, _ => rfl
  | .roarr _, _ => rfl
  | .obj _, _ => rfl

mutual
theorem flattenU_notUnion : (l : TyList) → allL notUnion (flattenU l) = true
  | .nil => rfl
  | .cons t r => by
      rw [flattenU, allL_append]
      exact band_mpr (flat1_notUnion t) (flattenU_notUnion r)
theorem flat1_notUnion : (t : Ty) → allL notUnion (flat1 t) = true
  | .union ms => flattenU_notUnion ms
  | .prim _ => rfl
  | .never => rfl
  | .fn => rfl
  | .arr _ => rfl
  | .roarr _ => rfl
  | .obj _ => rfl
end

mutual
theorem allL_flattenU (p : Ty → Bool)
    (hp : ∀ ms, p (Ty.union ms) = true → allL p ms = true) :
    (l : TyList) → allL p l = true → allL p (flattenU l) = true
  | .nil, _ => rfl
  | .cons t r, h => by
      obtain ⟨h1, h2⟩ := band_mp h
      rw [flattenU, allL_append]
      exact band_mpr (allL_flat1 p hp t h1) (allL_flattenU p hp r h2)
theorem allL_flat1 (p : Ty → Bool)
    (hp : ∀ ms, p (Ty.union ms) = true → allL p ms = true) :
    (t : Ty) → p t = true → allL p (flat1 t) = true
  | .union ms, h => allL_flattenU p hp ms (hp ms h)
  | .prim _, h => by simp [flat1, allL, h]
  | .never, h => by simp [flat1, allL, h]
  | .fn, h => by simp [flat1, allL, h]
  | .arr _, h => by simp [flat1, allL, h]
  | .roarr _, h => by simp [flat1, allL, h]
  | .obj _, h => by simp [flat1, allL, h]
end

mutual
theorem anyL_flattenU (p : Ty → Bool)
    (hp : ∀ ms, p (Ty.union ms) = true → anyL p ms = true) :
    (l : TyList) → anyL p l = true → anyL p (flattenU l) = true
  | .cons t r, h => by
      rw [flattenU, anyL_append]
      rcases bor_mp (by simpa [anyL] using h) with h1 | h2
      · exact bor_mpr_left (anyL_flat1 p hp t h1)
      · exact bor_mpr_right (anyL_flattenU p hp r h2)
theorem anyL_flat1 (p : Ty → Bool)
    (hp : ∀ ms, p (Ty.union ms) = true → anyL p ms = true) :
    (t : Ty) → p t = true → anyL p (flat1 t) = true
  | .union ms, h => anyL_flattenU p hp ms (hp ms h)
  | .prim _, h => by simp [flat1, anyL, h]
  | .never, h => by simp [flat1, anyL, h]
  | .fn, h => by simp [flat1, anyL, h]
  | .arr _, h => by simp [flat1, anyL, h]
  | .roarr _, h => by simp [flat1, anyL, h]
  | .obj _, h => by simp [flat1, anyL, h]
end

theorem flattenU_eq_self : (l : TyList) → allL notUnion l = true → flattenU l = l
  | .nil, _ => rfl
  | .cons t r, h => by
      obtain ⟨h1, h2⟩ := band_mp h
      rw [flattenU, flat1_eq_single t h1, flattenU_eq_self r h2]
      rfl

theorem allL_dropNever (p : Ty → Bool) :
    (l : TyList) → allL p l = true → allL p (dropNever l) = true
  | .nil, _ => rfl
  | .cons t r, h => by
      obtain ⟨h1, h2⟩ := band_mp h
      rw [dropNever]
      by_cases ht : t = Ty.never
      · simp [ht, allL_dropNever p r h2]
      · simp [ht, allL, h1, allL_dropNever p r h2]

theorem anyL_dropNever (p : Ty → Bool) (hnever : p Ty.never = false) :
    (l : TyList) → anyL p l = true → anyL p (dropNever l) = true
  | .cons t r, h => by
      rw [dropNever]
      rcases bor_mp (by simpa [anyL] using h) with h1 | h2
      · have ht : ¬(t = Ty.never) := fun e => by rw [e, hnever] at h1; exact Bool.false_ne_true h1
        simp [ht, anyL, h1]
      · by_cases ht : t = Ty.never
        · simp [ht, anyL_dropNever p hnever r h2]
        · simp [ht, anyL, anyL_dropNever p hnever r h2]

theorem dropNever_notNever : (l : TyList) → allL notNever (dropNever l) = true
  | .nil => rfl
  | .cons t r => by
      rw [dropNever]
      by_cases ht : t = Ty.never
      · simp [ht, dropNever_notNever r]
      · have hn : notNever t = true := by
          cases t <;> simp_all [notNever]
        simp [ht, allL, hn, dropNever_notNever r]

theorem dropNever_eq_self : (l : TyList) → allL notNever l = true → dropNever l = l
  | .nil, _ => rfl
  | .cons t r, h => by
      obtain ⟨h1, h2⟩ := band_mp h
      have ht : ¬(t = Ty.never) := fun e => by rw [e] at h1; exact Bool.false_ne_true h1
      rw [dropNever]
      simp [ht, dropNever_eq_self r h2]

theorem allL_dedupAux (p : Ty → Bool) :
    (l : TyList) → ∀ seen, allL p l = true → allL p (dedupAux seen l) = true
  | .nil, _, _ => rfl
  | .cons t r, seen, h => by
      obtain ⟨h1, h2⟩ := band_mp h
      rw [dedupAux]
      by_cases hm : memT t seen = true
      · simp [hm, allL_dedupAux p r seen h2]
      · simp [hm, allL, h1, allL_dedupAux p r (.cons t seen) h2]

theorem anyL_of_memT (p : Ty → Bool) :
    (l : TyList) → ∀ t, memT t l = true → p t = true → anyL p l = true
  | .cons u ur, t, hm, hp => by
      rw [memT] at hm
      rcases bor_mp hm with he | hr
      · have ht : t = u := eq_of_beq he
        rw [anyL, ← ht, hp]
        simp
      · rw [anyL]
        simp [anyL_of_memT p ur t hr hp]

theorem anyL_dedupAux (p : Ty → Bool) :
    (l : TyList) → ∀ seen, anyL p l = true →
      anyL p (dedupAux seen l) = true ∨ anyL p seen = true
  | .cons t r, seen, h => by
      rw [dedupAux]
      rcases bor_mp (by simpa [anyL] using h) with h1 | h2
      · by_cases hm : memT t seen = true
        · exact Or.inr (anyL_of_memT p seen t hm h1)
        · left
          simp [hm, anyL, h1]
      · by_cases hm : memT t seen = true
        · rcases anyL_dedupAux p r seen h2 with h3 | h3
          · left; simp [hm, h3]
          · exact Or.inr h3
        · rcases anyL_dedupAux p r (.cons t seen) h2 with h3 | h3
          · left; simp [hm, anyL, h3]
          · rcases bor_mp (by simpa [anyL] using h3) with h4 | h4
            · left; simp [hm, anyL, h4]
            · exact Or.inr h4

theorem memT_dedupAux :
    (l : TyList) → ∀ seen x, memT x (dedupAux seen l) = true →
      memT x seen = false
  | .nil, seen, x, h => by simp [dedupAux, memT] at h
  | .cons t r, seen, x, h => by
      rw [dedupAux] at h
      by_cases hm : memT t seen = true
      · rw [if_pos hm] at h
        exact memT_dedupAux r seen x h
      · rw [if_neg hm, memT] at h
        rcases bor_mp h with he | hr
        · have hx : x = t := eq_of_beq he
          rw [hx]
          exact bool_eq_false hm
        · have h2 := memT_dedupAux r (.cons t seen) x hr
          rw [memT] at h2
          exact (bor_eq_false h2).2

theorem nodupL_dedupAux :
    (l : TyList) → ∀ seen, nodupL (dedupAux seen l) = true
  | .nil, _ => rfl
  | .cons t r, seen => by
      rw [dedupAux]
      by_cases hm : memT t seen = true
      · rw [if_pos hm]
        exact nodupL_dedupAux r seen
      · rw [if_neg hm]
        have hnotin : memT t (dedupAux (.cons t seen) r) = false := by
          cases hx : memT t (dedupAux (.cons t seen) r)
          · rfl
          · have h2 := memT_dedupAux r (.cons t seen) t hx
            rw [memT] at h2
            have := (bor_eq_false h2).1
            simp at this
        rw [nodupL, hnotin]
        simp [nodupL_dedupAux r (.cons t seen)]

theorem allL_not_mem_cons :
    (r : TyList) → ∀ t seen, memT t r = false →
      allL (fun x => !(memT x seen)) r = true →
      allL (fun x => !(memT x (TyList.cons t seen))) r = true
  | .nil, _, _, _, _ => rfl
  | .cons u ur, t, seen, h, hall => by
      rw [memT] at h
      obtain ⟨h1, h2⟩ := bor_eq_false h
      rw [allL] at hall ⊢
      obtain ⟨ha, hb⟩ := band_mp hall
      apply band_mpr
      · have hu : (u == t) = false := by
          cases he : u == t
          · rfl
          · have : u = t := eq_of_beq he
            rw [this] at h1
            simp at h1
        simp only [memT, hu, Bool.false_or]
        exact ha
      · exact allL_not_mem_cons ur t seen h2 hb

theorem dedupAux_eq_self :
    (l : TyList) → ∀ seen, nodupL l = true →
      allL (fun x => !(memT x seen)) l = true → dedupAux seen l = l
  | .nil, _, _, _ => rfl
  | .cons t r, seen, hnd, hdis => by
      rw [nodupL] at hnd
      obtain ⟨hn1, hn2⟩ := band_mp hnd
      rw [allL] at hdis
      obtain ⟨hd1, hd2⟩ := band_mp hdis
      have hm : memT t seen = false := by
        cases hx : memT t seen
        · rfl
        · rw [hx] at hd1; simp at hd1
      have hmr : memT t r = false := by
        cases hx : memT t r
        · rfl
        · rw [hx] at hn1; simp at hn1
      rw [dedupAux, if_neg (by simp [hm])]
      rw [dedupAux_eq_self r (.cons t seen) hn2
        (allL_not_mem_cons r t seen hmr hd2)]

theorem allL_of_all (p : Ty → Bool) (hp : ∀ t, p t = true) :
    (l : TyList) → allL p l = true
  | .nil => rfl
  | .cons t r => band_mpr (hp t) (allL_of_all p hp r)

/-- A list satisfying `structNorm` is already in `mkUnion` normal form. -/
theorem mkUnion_eq_self (ms : TyList) (h : structNorm ms = true) :
    mkUnion ms = Ty.union ms := by
  rw [structNorm] at h
  obtain ⟨h123, h4⟩ := band_mp h
  obtain ⟨h12, h3⟩ := band_mp h123
  obtain ⟨h1, h2⟩ := band_mp h12
  have hn : dedupT (dropNever (flattenU ms)) = ms := by
    rw [flattenU_eq_self ms h2, dropNever_eq_self ms h3, dedupT,
      dedupAux_eq_self ms .nil h4 (allL_of_all _ (fun t => by simp [memT]) ms)]
  rw [mkUnion, hn]
  rcases ms with _ | ⟨a, _ | ⟨b, r⟩⟩
  · simp [atLeast2] at h1
  · simp [atLeast2] at h1
  · rfl

/-- `mkUnion` preserves any member predicate `p` that is hereditary for
unions, holds of `never`, and holds of a normalised union of `p`-members. -/
theorem p_mkUnion (p : Ty → Bool) (hnever : p Ty.never = true)
    (hdown : ∀ ms, p (Ty.union ms) = true → allL p ms = true)
    (hup : ∀ ms, structNorm ms = true → allL p ms = true →
      p (Ty.union ms) = true)
    (l : TyList) (hl : allL p l = true) : p (mkUnion l) = true := by
  have hded : allL p (dedupT (dropNever (flattenU l))) = true :=
    allL_dedupAux p _ .nil (allL_dropNever p _ (allL_flattenU p hdown l hl))
  have hnU : allL notUnion (dedupT (dropNever (flattenU l))) = true :=
    allL_dedupAux _ _ .nil (allL_dropNever _ _ (flattenU_notUnion l))
  have hnN : allL notNever (dedupT (dropNever (flattenU l))) = true :=
    allL_dedupAux _ _ .nil (dropNever_notNever _)
  have hnd : nodupL (dedupT (dropNever (flattenU l))) = true :=
    nodupL_dedupAux _ .nil
  rw [mkUnion]
  rcases hcase : dedupT (dropNever (flattenU l)) with _ | ⟨t, _ | ⟨b, r⟩⟩
  · exact hnever
  · rw [hcase] at hded
    exact (band_mp hded).1
  · rw [hcase] at hded hnU hnN hnd
    apply hup
    · rw [structNorm, atLeast2]
      simp [hnU, hnN, hnd]
    · exact hded

/-- `mkUnion` preserves any witness predicate `p` that is false of `never`
and transfers between a union and its member list. -/
theorem anyP_mkUnion (p : Ty → Bool) (hnever : p Ty.never = false)
    (hdownAny : ∀ ms, p (Ty.union ms) = true → anyL p ms = true)
    (hupAny : ∀ ms, anyL p ms = true → p (Ty.union ms) = true)
    (l : TyList) (hl : anyL p l = true) : p (mkUnion l) = true := by
  have h3 : anyL p (dedupT (dropNever (flattenU l))) = true := by
    rcases anyL_dedupAux p _ .nil
      (anyL_dropNever p hnever _ (anyL_flattenU p hdownAny l hl)) with h | h
    · exact h
    · simp [anyL] at h
  rw [mkUnion]
  rcases hcase : dedupT (dropNever (flattenU l)) with _ | ⟨t, _ | ⟨b, r⟩⟩
  · rw [hcase] at h3
    simp [anyL] at h3
  · rw [hcase] at h3
    simp only [anyL, Bool.or_false] at h3
    exact h3
  · rw [hcase] at h3
    exact hupAny _ h3

/-- Appending a member that already occurs does not change deduplication. -/
theorem dedupAux_congr_seen : (l : TyList) → ∀ s1 s2,
    (∀ x, memT x s1 = memT x s2) → dedupAux s1 l = dedupAux s2 l
  | .nil, _, _, _ => rfl
  | .cons t r, s1, s2, h => by
      have h2 : ∀ x, memT x (TyList.cons t s1) = memT x (TyList.cons t s2) := by
        intro x
        rw [memT, memT, h x]
      rw [dedupAux, dedupAux, h t]
      by_cases hm : memT t s2 = true
      · rw [if_pos hm, if_pos hm, dedupAux_congr_seen r s1 s2 h]
      · rw [if_neg hm, if_neg hm, dedupAux_congr_seen r (.cons t s1) (.cons t s2) h2]

theorem dedupAux_append_mem :
    (l : TyList) → ∀ seen x, (memT x l || memT x seen) = true →
      dedupAux seen (appendT l (.cons x .nil)) = dedupAux seen l
  | .nil, seen, x, h => by
      rw [memT] at h
      have hs : memT x seen = true := by
        rcases bor_mp h with h1 | h2
        · exact absurd h1 (by simp)
        · exact h2
      simp [appendT, dedupAux, hs]
  | .cons t r, seen, x, h => by
      rw [appendT, dedupAux, dedupAux]
      by_cases hm : memT t seen = true
      · rw [if_pos hm, if_pos hm]
        apply dedupAux_append_mem r seen x
        rw [memT] at h
        rcases bor_mp h with h1 | h2
        · rcases bor_mp h1 with he | hr
          · have hx : x = t := eq_of_beq he
            rw [hx]
            simp [hm]
          · simp [hr]
        · simp [h2]
      · rw [if_neg hm, if_neg hm]
        congr 1
        apply dedupAux_append_mem r (.cons t seen) x
        rw [memT] at h
        rcases bor_mp h with h1 | h2
        · rcases bor_mp h1 with he | hr
          · simp only [memT, he]
            simp
          · simp [hr]
        · simp only [memT]
          simp [h2]

theorem appendT_nil : (l : TyList) → appendT l .nil = l
  | .nil => rfl
  | .cons t r => by rw [appendT, appendT_nil r]

theorem appendT_assoc : (a : TyList) → ∀ b c,
    appendT (appendT a b) c = appendT a (appendT b c)
  | .nil, _, _ => rfl
  | .cons t r, b, c => by rw [appendT, appendT, appendT, appendT_assoc r b c]

theorem memT_append (x : Ty) : (a : TyList) → ∀ b,
    memT x (appendT a b) = (memT x a || memT x b)
  | .nil, b => by simp [appendT, memT]
  | .cons t r, b => by
      rw [appendT, memT, memT, memT_append x r b, Bool.or_assoc]

/-- Pointwise map over a member list. -/
def mapL (f : Ty → Ty) : TyList → TyList
  | .nil => .nil
  | .cons t r => .cons (f t) (mapL f r)

theorem mapL_append (f : Ty → Ty) : (a : TyList) → ∀ b,
    mapL f (appendT a b) = appendT (mapL f a) (mapL f b)
  | .nil, _ => rfl
  | .cons t r, b => by rw [appendT, mapL, mapL, mapL_append f r b, appendT]

theorem flattenU_append : (a : TyList) → ∀ b,
    flattenU (appendT a b) = appendT (flattenU a) (flattenU b)
  | .nil, _ => rfl
  | .cons t r, b => by
      rw [appendT, flattenU, flattenU, flattenU_append r b, appendT_assoc]

theorem dropNever_append : (a : TyList) → ∀ b,
    dropNever (appendT a b) = appendT (dropNever a) (dropNever b)
  | .nil, _ => rfl
  | .cons t r, b => by
      rw [appendT, dropNever, dropNever]
      by_cases ht : t = Ty.never
      · simp [ht, dropNever_append r b]
      · simp [ht, appendT, dropNever_append r b]

/-- Deduplication with context `seen`, after dropping `never` members and
flattening — the core of `mkUnion`, generalised over the context. -/
def canSeen (seen l : TyList) : TyList :=
  dedupAux seen (dropNever (flattenU l))

theorem mkUnion_eq_canSeen (l : TyList) :
    mkUnion l = (match canSeen .nil l with
      | .nil => Ty.never
      | .cons t .nil => t
      | .cons a (.cons b r) => Ty.union (.cons a (.cons b r))) := rfl

theorem mkUnion_congr {a b : TyList} (h : canSeen .nil a = canSeen .nil b) :
    mkUnion a = mkUnion b := by
  rw [mkUnion_eq_canSeen, mkUnion_eq_canSeen, h]

theorem dedupAux_append : (a : TyList) → ∀ seen b,
    dedupAux seen (appendT a b) =
      appendT (dedupAux seen a) (dedupAux (appendT a seen) b)
  | .nil, seen, b => rfl
  | .cons t r, seen, b => by
      rw [appendT, dedupAux, dedupAux]
      by_cases hm : memT t seen = true
      · rw [if_pos hm, if_pos hm, dedupAux_append r seen b]
        have hseen : ∀ x, memT x (appendT r seen) =
            memT x (appendT (.cons t r) seen) := by
          intro x
          rw [memT_append, memT_append, memT]
          by_cases he : x = t
          · rw [he]
            simp [hm]
          · have hf : (x == t) = false := by
              cases hx : x == t
              · rfl
              · exact absurd (eq_of_beq hx) he
            rw [hf, Bool.false_or]
        rw [dedupAux_congr_seen b _ _ hseen]
      · rw [if_neg hm, if_neg hm, appendT, dedupAux_append r (.cons t seen) b]
        have hseen : ∀ x, memT x (appendT r (.cons t seen)) =
            memT x (appendT (.cons t r) seen) := by
          intro x
          rw [memT_append, memT_append, memT, memT]
          cases memT x r <;> cases x == t <;> cases memT x seen <;> rfl
        rw [dedupAux_congr_seen b _ _ hseen]

theorem memT_dedupAux_full (x : Ty) : (l : TyList) → ∀ seen,
    memT x (dedupAux seen l) = (memT x l && !(memT x seen))
  | .nil, seen => by simp [dedupAux, memT]
  | .cons t r, seen => by
      rw [dedupAux]
      by_cases hm : memT t seen = true
      · rw [if_pos hm, memT_dedupAux_full x r seen, memT]
        by_cases he : x = t
        · rw [he] at *
          simp [hm]
        · have : (x == t) = false := by
            cases hx : x == t
            · rfl
            · exact absurd (eq_of_beq hx) he
          rw [this, Bool.false_or]
      · rw [if_neg hm, memT, memT_dedupAux_full x r (.cons t seen), memT, memT]
        by_cases he : x = t
        · rw [he]
          simp [bool_eq_false hm]
        · have : (x == t) = false := by
            cases hx : x == t
            · rfl
            · exact absurd (eq_of_beq hx) he
          rw [this]
          cases memT x r <;> cases memT x seen <;> rfl

theorem dedupAux_all_seen : (l : TyList) → ∀ seen,
    allL (fun z => memT z seen) l = true → dedupAux seen l = .nil
  | .nil, _, _ => rfl
  | .cons t r, seen, h => by
      obtain ⟨h1, h2⟩ := band_mp h
      rw [dedupAux, if_pos h1]
      exact dedupAux_all_seen r seen h2

theorem dedupAux_dedupAux : (l : TyList) → ∀ s s2,
    (∀ x, memT x s2 = true → memT x s = true) →
    dedupAux s (dedupAux s2 l) = dedupAux s l
  | .nil, _, _, _ => rfl
  | .cons t r, s, s2, h => by
      conv_lhs => rw [dedupAux]
      by_cases hm2 : memT t s2 = true
      · rw [if_pos hm2, dedupAux_dedupAux r s s2 h]
        conv_rhs => rw [dedupAux]
        rw [if_pos (h t hm2)]
      · rw [if_neg hm2]
        conv_lhs => rw [dedupAux]
        conv_rhs => rw [dedupAux]
        by_cases hm : memT t s = true
        · rw [if_pos hm, if_pos hm]
          have h4 : ∀ x, memT x (TyList.cons t s2) = true → memT x s = true := by
            intro x hx
            rw [memT] at hx
            rcases bor_mp hx with he | hx2
            · rw [eq_of_beq he]
              exact hm
            · exact h x hx2
          exact dedupAux_dedupAux r s (.cons t s2) h4
        · rw [if_neg hm, if_neg hm]
          have h4 : ∀ x, memT x (TyList.cons t s2) = true →
              memT x (TyList.cons t s) = true := by
            intro x hx
            rw [memT] at hx ⊢
            rcases bor_mp hx with he | hx2
            · rw [he]
              simp
            · simp [h x hx2]
          rw [dedupAux_dedupAux r (.cons t s) (.cons t s2) h4]

theorem allL_imp (p q : Ty → Bool) (h : ∀ t, p t = true → q t = true) :
    (l : TyList) → allL p l = true → allL q l = true
  | .nil, _ => rfl
  | .cons t r, hall => by
      obtain ⟨h1, h2⟩ := band_mp hall
      exact band_mpr (h t h1) (allL_imp p q h r h2)

theorem allL_memT (p : Ty → Bool) :
    (l : TyList) → ∀ z, allL p l = true → memT z l = true → p z = true
  | .cons t r, z, hall, hm => by
      obtain ⟨h1, h2⟩ := band_mp hall
      rw [memT] at hm
      rcases bor_mp hm with he | hr
      · rw [eq_of_beq he]
        exact h1
      · exact allL_memT p r z h2 hr

theorem allL_self_mem : (l : TyList) → allL (fun z => memT z l) l = true
  | .nil => rfl
  | .cons t r => by
      rw [allL]
      apply band_mpr
      · rw [memT]
        simp
      · exact allL_imp _ _ (fun z hz => by rw [memT]; simp [hz]) r (allL_self_mem r)

/-- The members a freshly built union contributes to an enclosing union:
`flat1` after `mkUnion` recovers the normalised member list. -/
theorem dropNever_flat1_mkUnion (x : TyList) :
    dropNever (flat1 (mkUnion x)) = dedupT (dropNever (flattenU x)) := by
  have hnU : allL notUnion (dedupT (dropNever (flattenU x))) = true :=
    allL_dedupAux _ _ .nil (allL_dropNever _ _ (flattenU_notUnion x))
  have hnN : allL notNever (dedupT (dropNever (flattenU x))) = true :=
    allL_dedupAux _ _ .nil (dropNever_notNever _)
  rw [mkUnion]
  rcases hcase : dedupT (dropNever (flattenU x)) with _ | ⟨t, _ | ⟨b, r⟩⟩
  · rfl
  · rw [hcase] at hnU hnN
    obtain ⟨h1, _⟩ := band_mp hnU
    obtain ⟨h2, _⟩ := band_mp hnN
    rw [flat1_eq_single t h1, dropNever]
    have ht : ¬(t = Ty.never) := fun e => by
      rw [e] at h2
      exact absurd h2 (by simp [notNever])
    simp [ht, dropNever]
  · rw [hcase] at hnU hnN
    rw [show flat1 (Ty.union (.cons t (.cons b r))) = flattenU (.cons t (.cons b r))
      from rfl]
    rw [flattenU_eq_self _ hnU, dropNever_eq_self _ hnN]

/-- A type whose top-level union structure (if any) is normalised. -/
def topNorm : Ty → Bool
  | .union ms => structNorm ms
  | _ => true

theorem topNorm_mkUnion (l : TyList) : topNorm (mkUnion l) = true := by
  have hnU : allL notUnion (dedupT (dropNever (flattenU l))) = true :=
    allL_dedupAux _ _ .nil (allL_dropNever _ _ (flattenU_notUnion l))
  have hnN : allL notNever (dedupT (dropNever (flattenU l))) = true :=
    allL_dedupAux _ _ .nil (dropNever_notNever _)
  have hnd : nodupL (dedupT (dropNever (flattenU l))) = true :=
    nodupL_dedupAux _ .nil
  rw [mkUnion]
  rcases hcase : dedupT (dropNever (flattenU l)) with _ | ⟨t, _ | ⟨b, r⟩⟩
  · rfl
  · rw [hcase] at hnU
    obtain ⟨h1, _⟩ := band_mp hnU
    cases t with
    | union ms => exact absurd h1 (by simp [notUnion])
    | prim k => rfl
    | never => rfl
    | fn => rfl
    | arr e => rfl
    | roarr e => rfl
    | obj fs => rfl
  · rw [hcase] at hnU hnN hnd
    rw [show topNorm (Ty.union (.cons t (.cons b r))) = structNorm (.cons t (.cons b r))
      from rfl]
    rw [structNorm, atLeast2]
    simp [hnU, hnN, hnd]

/-- `mkUnion` of a singleton is the identity on top-normalised types. -/
theorem mkUnion_single (t : Ty) (h : topNorm t = true) :
    mkUnion (.cons t .nil) = t := by
  cases t with
  | union ms =>
      rw [show topNorm (Ty.union ms) = structNorm ms from rfl] at h
      have hc : canSeen .nil (.cons (Ty.union ms) .nil) = canSeen .nil ms := by
        rw [canSeen, canSeen, flattenU, flattenU, appendT_nil]
        rfl
      rw [mkUnion_congr hc, mkUnion_eq_self ms h]
  | prim k => rfl
  | never => rfl
  | fn => rfl
  | arr e => rfl
  | roarr e => rfl
  | obj fs => rfl

theorem canSeen_cons_split (x : Ty) (X seen : TyList) :
    canSeen seen (.cons x X) =
      appendT (dedupAux seen (dropNever (flat1 x)))
        (dedupAux (appendT (dropNever (flat1 x)) seen)
          (dropNever (flattenU X))) := by
  rw [canSeen, flattenU, dropNever_append, dedupAux_append]

/- ## Distribution of a transform over `mkUnion`

Every deep transform `f` distributes over unions of its (naked) parameter:
`f (A | B) = f A | f B`, with the result normalised as a union.  The
following lemmas prove, generically, that such an `f` commutes with
`mkUnion`: `f (mkUnion l) = mkUnion (mapL f l)`. -/

mutual
theorem canSeen_map_flattenU (f : Ty → Ty)
    (hunion : ∀ ms, f (Ty.union ms) = mkUnion (mapL f ms)) :
    (l : TyList) → ∀ seen,
      canSeen seen (mapL f (flattenU l)) = canSeen seen (mapL f l)
  | .nil, _ => rfl
  | .cons t r, seen => by
      have hmem : ∀ z, memT z (dropNever (flattenU (mapL f (flat1 t)))) =
          memT z (dropNever (flat1 (f t))) := by
        intro z
        have e3 : dedupAux .nil (dropNever (flattenU (mapL f (flat1 t)))) =
            dedupAux .nil (dropNever (flat1 (f t))) := by
          have e := canSeen_map_flat1 f hunion t .nil
          rwa [canSeen] at e
        have e1 := memT_dedupAux_full z (dropNever (flattenU (mapL f (flat1 t)))) .nil
        have e2 := memT_dedupAux_full z (dropNever (flat1 (f t))) .nil
        rw [e3] at e1
        have e4 := e1.symm.trans e2
        simpa [memT] using e4
      rw [flattenU, mapL_append, canSeen, flattenU_append, dropNever_append,
        dedupAux_append, mapL, canSeen_cons_split]
      congr 1
      · have e := canSeen_map_flat1 f hunion t seen
        rwa [canSeen] at e
      · have hr := canSeen_map_flattenU f hunion r
          (appendT (dropNever (flattenU (mapL f (flat1 t)))) seen)
        rw [canSeen, canSeen] at hr
        rw [hr]
        apply dedupAux_congr_seen
        intro z
        rw [memT_append, memT_append, hmem z]
theorem canSeen_map_flat1 (f : Ty → Ty)
    (hunion : ∀ ms, f (Ty.union ms) = mkUnion (mapL f ms)) :
    (t : Ty) → ∀ seen,
      canSeen seen (mapL f (flat1 t)) = dedupAux seen (dropNever (flat1 (f t)))
  | .prim k, seen => by
      simp only [flat1, mapL, canSeen, flattenU, appendT_nil]
  | .never, seen => by
      simp only [flat1, mapL, canSeen, flattenU, appendT_nil]
  | .fn, seen => by
      simp only [flat1, mapL, canSeen, flattenU, appendT_nil]
  | .arr e, seen => by
      simp only [flat1, mapL, canSeen, flattenU, appendT_nil]
  | .roarr e, seen => by
      simp only [flat1, mapL, canSeen, flattenU, appendT_nil]
  | .obj fs, seen => by
      simp only [flat1, mapL, canSeen, flattenU, appendT_nil]
  | .union ms, seen => by
      rw [show flat1 (Ty.union ms) = flattenU ms from rfl]
      rw [canSeen_map_flattenU f hunion ms seen]
      rw [hunion ms, dropNever_flat1_mkUnion, dedupT]
      rw [dedupAux_dedupAux _ seen .nil (fun x hx => by
        rw [memT] at hx
        exact absurd hx (by simp))]
      rfl
end

theorem canSeen_map_dropNever (f : Ty → Ty) (hnever : f Ty.never = Ty.never) :
    (l : TyList) → ∀ seen,
      canSeen seen (mapL f (dropNever l)) = canSeen seen (mapL f l)
  | .nil, _ => rfl
  | .cons t r, seen => by
      rw [dropNever]
      by_cases ht : t = Ty.never
      · rw [if_pos (by simp [ht]), canSeen_map_dropNever f hnever r seen, ht,
          mapL, hnever, canSeen_cons_split]
        rw [show dropNever (flat1 Ty.never) = TyList.nil from rfl]
        rw [dedupAux, appendT, appendT]
        rfl
      · rw [if_neg (by simp [ht]), mapL, mapL, canSeen_cons_split,
          canSeen_cons_split]
        congr 1
        have e := canSeen_map_dropNever f hnever r
          (appendT (dropNever (flat1 (f t))) seen)
        rw [canSeen, canSeen] at e
        exact e

theorem canSeen_map_dedupAux (f : Ty → Ty) :
    (l : TyList) → ∀ s seen,
      (∀ x, memT x s = true →
        allL (fun z => memT z seen) (dropNever (flat1 (f x))) = true) →
      canSeen seen (mapL f (dedupAux s l)) = canSeen seen (mapL f l)
  | .nil, _, _, _ => rfl
  | .cons t r, s, seen, h => by
      rw [dedupAux]
      by_cases hm : memT t s = true
      · rw [if_pos hm, canSeen_map_dedupAux f r s seen h, mapL,
          canSeen_cons_split, dedupAux_all_seen _ seen (h t hm), appendT]
        rw [canSeen]
        apply dedupAux_congr_seen
        intro z
        rw [memT_append]
        by_cases hz : memT z (dropNever (flat1 (f t))) = true
        · rw [hz, allL_memT _ _ z (h t hm) hz]
          rfl
        · rw [bool_eq_false hz, Bool.false_or]
      · rw [if_neg hm, mapL, mapL, canSeen_cons_split, canSeen_cons_split]
        congr 1
        have h4 : ∀ x, memT x (TyList.cons t s) = true →
            allL (fun z => memT z (appendT (dropNever (flat1 (f t))) seen))
              (dropNever (flat1 (f x))) = true := by
          intro x hx
          rw [memT] at hx
          rcases bor_mp hx with he | hxs
          · rw [eq_of_beq he]
            apply allL_imp _ _ _ _ (allL_self_mem (dropNever (flat1 (f t))))
            intro z hz
            rw [memT_append, hz]
            rfl
          · apply allL_imp _ _ _ _ (h x hxs)
            intro z hz
            rw [memT_append, hz]
            simp
        have e := canSeen_map_dedupAux f r (.cons t s)
          (appendT (dropNever (flat1 (f t))) seen) h4
        rw [canSeen, canSeen] at e
        exact e

/-- A transform that distributes over unions, fixes `never`, and produces
top-normalised outputs commutes with building a union. -/
theorem f_mkUnion_comm (f : Ty → Ty) (hnever : f Ty.never = Ty.never)
    (hunion : ∀ ms, f (Ty.union ms) = mkUnion (mapL f ms))
    (hnorm : ∀ t, topNorm (f t) = true) :
    ∀ l, f (mkUnion l) = mkUnion (mapL f l) := by
  intro l
  have key : canSeen .nil (mapL f (canSeen .nil l)) = canSeen .nil (mapL f l) := by
    rw [show canSeen TyList.nil l = dedupAux .nil (dropNever (flattenU l)) from rfl]
    rw [canSeen_map_dedupAux f (dropNever (flattenU l)) .nil .nil
      (fun x hx => by rw [memT] at hx; exact absurd hx (by simp))]
    rw [canSeen_map_dropNever f hnever _ .nil]
    exact canSeen_map_flattenU f hunion l .nil
  rw [mkUnion_eq_canSeen l]
  rcases hcase : canSeen .nil l with _ | ⟨t, _ | ⟨b, r⟩⟩
  · rw [hcase] at key
    rw [hnever, ← mkUnion_congr key]
    rfl
  · rw [hcase] at key
    have key2 : canSeen .nil (.cons (f t) .nil) = canSeen .nil (mapL f l) := by
      rw [show TyList.cons (f t) TyList.nil = mapL f (.cons t .nil) from rfl]
      exact key
    show f t = mkUnion (mapL f l)
    rw [← mkUnion_congr key2, mkUnion_single (f t) (hnorm t)]
  · rw [hcase] at key
    rw [hunion, ← mkUnion_congr key]

/- ## The deep transforms commute with `mkUnion` -/

theorem deepReadonlyL_eq_mapL : (l : TyList) →
    deepReadonlyL l = mapL DeepReadonlyTy l
  | .nil => rfl
  | .cons t r => by rw [deepReadonlyL, mapL, deepReadonlyL_eq_mapL r]

theorem deepPartialL_eq_mapL : (l : TyList) →
    deepPartialL l = mapL DeepPartialTy l
  | .nil => rfl
  | .cons t r => by rw [deepPartialL, mapL, deepPartialL_eq_mapL r]

theorem deepRequiredL_eq_mapL : (l : TyList) →
    deepRequiredL l = mapL DeepRequiredTy l
  | .nil => rfl
  | .cons t r => by rw [deepRequiredL, mapL, deepRequiredL_eq_mapL r]

theorem deepRequiredNUL_eq_mapL : (l : TyList) →
    deepRequiredNUL l = mapL deepRequiredNU l
  | .nil => rfl
  | .cons t r => by rw [deepRequiredNUL, mapL, deepRequiredNUL_eq_mapL r]

theorem deepNonNullableL_eq_mapL : (l : TyList) →
    deepNonNullableL l = mapL DeepNonNullableTy l
  | .nil => rfl
  | .cons t r => by rw [deepNonNullableL, mapL, deepNonNullableL_eq_mapL r]

theorem deepNonNullableNNL_eq_mapL : (l : TyList) →
    deepNonNullableNNL l = mapL deepNonNullableNN l
  | .nil => rfl
  | .cons t r => by rw [deepNonNullableNNL, mapL, deepNonNullableNNL_eq_mapL r]

theorem topNorm_deepReadonly : ∀ t, topNorm (DeepReadonlyTy t) = true
  | .prim _ => rfl
  | .never => rfl
  | .fn => rfl
  | .arr _ => rfl
  | .roarr _ => rfl
  | .obj _ => rfl
  | .union ms => topNorm_mkUnion (deepReadonlyL ms)

theorem topNorm_deepPartial : ∀ t, topNorm (DeepPartialTy t) = true
  | .prim k => topNorm_mkUnion _
  | .never => rfl
  | .fn => rfl
  | .arr _ => rfl
  | .roarr _ => rfl
  | .obj _ => rfl
  | .union ms => topNorm_mkUnion (deepPartialL ms)

theorem topNorm_deepRequired : ∀ t, topNorm (DeepRequiredTy t) = true
  | .prim _ => rfl
  | .never => rfl
  | .fn => rfl
  | .arr _ => rfl
  | .roarr _ => rfl
  | .obj _ => rfl
  | .union ms => topNorm_mkUnion (deepRequiredL ms)

theorem topNorm_deepRequiredNU : ∀ t, topNorm (deepRequiredNU t) = true
  | .prim .pundefined => rfl
  | .prim .pnull => rfl
  | .prim .pstring => rfl
  | .prim .pnumber => rfl
  | .prim .pboolean => rfl
  | .prim .psymbol => rfl
  | .never => rfl
  | .fn => rfl
  | .arr _ => rfl
  | .roarr _ => rfl
  | .obj _ => rfl
  | .union ms => topNorm_mkUnion (deepRequiredNUL ms)

theorem topNorm_deepNonNullable : ∀ t, topNorm (DeepNonNullableTy t) = true
  | .prim _ => rfl
  | .never => rfl
  | .fn => rfl
  | .arr _ => rfl
  | .roarr _ => rfl
  | .obj _ => rfl
  | .union ms => topNorm_mkUnion (deepNonNullableL ms)

theorem topNorm_deepNonNullableNN : ∀ t, topNorm (deepNonNullableNN t) = true
  | .prim .pundefined => rfl
  | .prim .pnull => rfl
  | .prim .pstring => rfl
  | .prim .pnumber => rfl
  | .prim .pboolean => rfl
  | .prim .psymbol => rfl
  | .never => rfl
  | .fn => rfl
  | .arr _ => rfl
  | .roarr _ => rfl
  | .obj _ => rfl
  | .union ms => topNorm_mkUnion (deepNonNullableNNL ms)

theorem deepReadonly_mkUnion (l : TyList) :
    DeepReadonlyTy (mkUnion l) = mkUnion (mapL DeepReadonlyTy l) :=
  f_mkUnion_comm DeepReadonlyTy rfl
    (fun ms => by rw [DeepReadonlyTy, deepReadonlyL_eq_mapL])
    topNorm_deepReadonly l

theorem deepPartial_mkUnion (l : TyList) :
    DeepPartialTy (mkUnion l) = mkUnion (mapL DeepPartialTy l) :=
  f_mkUnion_comm DeepPartialTy rfl
    (fun ms => by rw [DeepPartialTy, deepPartialL_eq_mapL])
    topNorm_deepPartial l

theorem deepRequired_mkUnion (l : TyList) :
    DeepRequiredTy (mkUnion l) = mkUnion (mapL DeepRequiredTy l) :=
  f_mkUnion_comm DeepRequiredTy rfl
    (fun ms => by rw [DeepRequiredTy, deepRequiredL_eq_mapL])
    topNorm_deepRequired l

theorem deepRequiredNU_mkUnion (l : TyList) :
    deepRequiredNU (mkUnion l) = mkUnion (mapL deepRequiredNU l) :=
  f_mkUnion_comm deepRequiredNU rfl
    (fun ms => by rw [deepRequiredNU, deepRequiredNUL_eq_mapL])
    topNorm_deepRequiredNU l

theorem deepNonNullable_mkUnion (l : TyList) :
    DeepNonNullableTy (mkUnion l) = mkUnion (mapL DeepNonNullableTy l) :=
  f_mkUnion_comm DeepNonNullableTy rfl
    (fun ms => by rw [DeepNonNullableTy, deepNonNullableL_eq_mapL])
    topNorm_deepNonNullable l

theorem deepNonNullableNN_mkUnion (l : TyList) :
    deepNonNullableNN (mkUnion l) = mkUnion (mapL deepNonNullableNN l) :=
  f_mkUnion_comm deepNonNullableNN rfl
    (fun ms => by rw [deepNonNullableNN, deepNonNullableNNL_eq_mapL])
    topNorm_deepNonNullableNN l

/- ## Idempotence of the deep transforms -/

mutual
theorem deepReadonly_idem : (t : Ty) →
    DeepReadonlyTy (DeepReadonlyTy t) = DeepReadonlyTy t
  | .prim _ => rfl
  | .never => rfl
  | .fn => rfl
  | .arr e => by
      rw [DeepReadonlyTy, DeepReadonlyTy, deepReadonly_idem e]
  | .roarr e => by
      rw [DeepReadonlyTy, DeepReadonlyTy, deepReadonly_idem e]
  | .obj fs => by
      rw [DeepReadonlyTy, DeepReadonlyTy, deepReadonlyF_idem fs]
  | .union ms => by
      rw [DeepReadonlyTy, deepReadonlyL_eq_mapL, deepReadonly_mkUnion,
        mapL_deepReadonly_idem ms]
theorem deepReadonlyF_idem : (fs : Fields) →
    deepReadonlyF (deepReadonlyF fs) = deepReadonlyF fs
  | .nil => rfl
  | .cons n o r ty rest => by
      rw [deepReadonlyF, deepReadonlyF, deepReadonly_idem ty,
        deepReadonlyF_idem rest]
theorem mapL_deepReadonly_idem : (l : TyList) →
    mapL DeepReadonlyTy (mapL DeepReadonlyTy l) = mapL DeepReadonlyTy l
  | .nil => rfl
  | .cons t r => by
      rw [mapL, mapL, deepReadonly_idem t, mapL_deepReadonly_idem r]
end

theorem dedup_pair (s : TyList) (x : Ty) :
    dedupAux s (.cons x (.cons x .nil)) = dedupAux s (.cons x .nil) := by
  conv_lhs => rw [dedupAux]
  by_cases hm : memT x s = true
  · rw [if_pos hm]
  · rw [if_neg hm]
    rw [dedupAux, if_pos (by rw [memT]; simp), dedupAux]
    conv_rhs => rw [dedupAux]
    rw [if_neg hm, dedupAux]

theorem mkUnion_cons_mkUnion (y z : TyList) :
    mkUnion (.cons (mkUnion y) z) = mkUnion (appendT y z) := by
  apply mkUnion_congr
  rw [canSeen_cons_split, dropNever_flat1_mkUnion]
  rw [canSeen, flattenU_append, dropNever_append, dedupAux_append]
  congr 1
  · rw [dedupT]
    exact dedupAux_dedupAux _ .nil .nil (fun x hx => hx)
  · apply dedupAux_congr_seen
    intro x
    rw [memT_append, memT_append, dedupT, memT_dedupAux_full]
    simp [memT]

theorem mkUnion_dup_undef (a : Ty) :
    mkUnion (.cons a (.cons (Ty.prim .pundefined)
      (.cons (Ty.prim .pundefined) .nil))) =
    mkUnion (.cons a (.cons (Ty.prim .pundefined) .nil)) := by
  apply mkUnion_congr
  rw [canSeen_cons_split, canSeen_cons_split]
  congr 1
  rw [show dropNever (flattenU (.cons (Ty.prim .pundefined)
      (.cons (Ty.prim .pundefined) .nil))) =
    (TyList.cons (Ty.prim .pundefined) (.cons (Ty.prim .pundefined) .nil))
    from rfl]
  rw [show dropNever (flattenU (.cons (Ty.prim .pundefined) .nil)) =
    (TyList.cons (Ty.prim .pundefined) .nil) from rfl]
  exact dedup_pair _ _

mutual
theorem deepPartial_idem : (t : Ty) →
    DeepPartialTy (DeepPartialTy t) = DeepPartialTy t
  | .prim k => by cases k <;> decide
  | .never => rfl
  | .fn => rfl
  | .arr e => by
      rw [DeepPartialTy, DeepPartialTy, deepPartial_idem e]
  | .roarr e => by
      rw [DeepPartialTy, DeepPartialTy, deepPartial_mkUnion]
      rw [show mapL DeepPartialTy
          (.cons (DeepPartialTy e) (.cons (Ty.prim .pundefined) .nil)) =
        (TyList.cons (DeepPartialTy (DeepPartialTy e))
          (.cons (DeepPartialTy (Ty.prim .pundefined)) .nil)) from rfl]
      rw [deepPartial_idem e]
      rw [show DeepPartialTy (Ty.prim .pundefined) = Ty.prim .pundefined
        from by decide]
      rw [mkUnion_cons_mkUnion]
      rw [show appendT (.cons (DeepPartialTy e) (.cons (Ty.prim .pundefined) .nil))
          (.cons (Ty.prim .pundefined) .nil) =
        (TyList.cons (DeepPartialTy e) (.cons (Ty.prim .pundefined)
          (.cons (Ty.prim .pundefined) .nil))) from rfl]
      rw [mkUnion_dup_undef]
  | .obj fs => by
      rw [DeepPartialTy, DeepPartialTy, deepPartialF_idem fs]
  | .union ms => by
      rw [DeepPartialTy, deepPartialL_eq_mapL, deepPartial_mkUnion,
        mapL_deepPartial_idem ms]
theorem deepPartialF_idem : (fs : Fields) →
    deepPartialF (deepPartialF fs) = deepPartialF fs
  | .nil => rfl
  | .cons n o r ty rest => by
      rw [deepPartialF, deepPartialF, deepPartial_idem ty,
        deepPartialF_idem rest]
theorem mapL_deepPartial_idem : (l : TyList) →
    mapL DeepPartialTy (mapL DeepPartialTy l) = mapL DeepPartialTy l
  | .nil => rfl
  | .cons t r => by
      rw [mapL, mapL, deepPartial_idem t, mapL_deepPartial_idem r]
end

mutual
theorem deepRequired_idem : (t : Ty) →
    DeepRequiredTy (DeepRequiredTy t) = DeepRequiredTy t
  | .prim _ => rfl
  | .never => rfl
  | .fn => rfl
  | .arr e => by
      rw [DeepRequiredTy, DeepRequiredTy, deepRequiredNU_idem e]
  | .roarr e => by
      rw [DeepRequiredTy, DeepRequiredTy, deepRequiredNU_idem e]
  | .obj fs => by
      rw [DeepRequiredTy, DeepRequiredTy, deepRequiredF_idem fs]
  | .union ms => by
      rw [DeepRequiredTy, deepRequiredL_eq_mapL, deepRequired_mkUnion,
        mapL_deepRequired_idem ms]
theorem deepRequiredNU_idem : (t : Ty) →
    deepRequiredNU (deepRequiredNU t) = deepRequiredNU t
  | .prim .pundefined => rfl
  | .prim .pnull => rfl
  | .prim .pstring => rfl
  | .prim .pnumber => rfl
  | .prim .pboolean => rfl
  | .prim .psymbol => rfl
  | .never => rfl
  | .fn => rfl
  | .arr e => by
      rw [deepRequiredNU, deepRequiredNU, deepRequiredNU_idem e]
  | .roarr e => by
      rw [deepRequiredNU, deepRequiredNU, deepRequiredNU_idem e]
  | .obj fs => by
      rw [deepRequiredNU, deepRequiredNU, deepRequiredF_idem fs]
  | .union ms => by
      rw [deepRequiredNU, deepRequiredNUL_eq_mapL, deepRequiredNU_mkUnion,
        mapL_deepRequiredNU_idem ms]
theorem deepRequiredF_idem : (fs : Fields) →
    deepRequiredF (deepRequiredF fs) = deepRequiredF fs
  | .nil => rfl
  | .cons n o r ty rest => by
      rw [deepRequiredF, deepRequiredF, deepRequiredNU_idem ty,
        deepRequiredF_idem rest]
theorem mapL_deepRequired_idem : (l : TyList) →
    mapL DeepRequiredTy (mapL DeepRequiredTy l) = mapL DeepRequiredTy l
  | .nil => rfl
  | .cons t r => by
      rw [mapL, mapL, deepRequired_idem t, mapL_deepRequired_idem r]
theorem mapL_deepRequiredNU_idem : (l : TyList) →
    mapL deepRequiredNU (mapL deepRequiredNU l) = mapL deepRequiredNU l
  | .nil => rfl
  | .cons t r => by
      rw [mapL, mapL, deepRequiredNU_idem t, mapL_deepRequiredNU_idem r]
end

mutual
theorem deepNonNullable_idem : (t : Ty) →
    DeepNonNullableTy (DeepNonNullableTy t) = DeepNonNullableTy t
  | .prim _ => rfl
  | .never => rfl
  | .fn => rfl
  | .arr e => by
      rw [DeepNonNullableTy, DeepNonNullableTy, deepNonNullableNN_idem e]
  | .roarr e => by
      rw [DeepNonNullableTy, DeepNonNullableTy, deepNonNullableNN_idem e]
  | .obj fs => by
      rw [DeepNonNullableTy, DeepNonNullableTy, deepNonNullableF_idem fs]
  | .union ms => by
      rw [DeepNonNullableTy, deepNonNullableL_eq_mapL, deepNonNullable_mkUnion,
        mapL_deepNonNullable_idem ms]
theorem deepNonNullableNN_idem : (t : Ty) →
    deepNonNullableNN (deepNonNullableNN t) = deepNonNullableNN t
  | .prim .pundefined => rfl
  | .prim .pnull => rfl
  | .prim .pstring => rfl
  | .prim .pnumber => rfl
  | .prim .pboolean => rfl
  | .prim .psymbol => rfl
  | .never => rfl
  | .fn => rfl
  | .arr e => by
      rw [deepNonNullableNN, deepNonNullableNN, deepNonNullableNN_idem e]
  | .roarr e => by
      rw [deepNonNullableNN, deepNonNullableNN, deepNonNullableNN_idem e]
  | .obj fs => by
      rw [deepNonNullableNN, deepNonNullableNN, deepNonNullableF_idem fs]
  | .union ms => by
      rw [deepNonNullableNN, deepNonNullableNNL_eq_mapL,
        deepNonNullableNN_mkUnion, mapL_deepNonNullableNN_idem ms]
theorem deepNonNullableF_idem : (fs : Fields) →
    deepNonNullableF (deepNonNullableF fs) = deepNonNullableF fs
  | .nil => rfl
  | .cons n o r ty rest => by
      rw [deepNonNullableF, deepNonNullableF, deepNonNullableNN_idem ty,
        deepNonNullableF_idem rest]
theorem mapL_deepNonNullable_idem : (l : TyList) →
    mapL DeepNonNullableTy (mapL DeepNonNullableTy l) = mapL DeepNonNullableTy l
  | .nil => rfl
  | .cons t r => by
      rw [mapL, mapL, deepNonNullable_idem t, mapL_deepNonNullable_idem r]
theorem mapL_deepNonNullableNN_idem : (l : TyList) →
    mapL deepNonNullableNN (mapL deepNonNullableNN l) = mapL deepNonNullableNN l
  | .nil => rfl
  | .cons t r => by
      rw [mapL, mapL, deepNonNullableNN_idem t, mapL_deepNonNullableNN_idem r]
end

/- ## Result-shape predicates for the deep transforms -/

mutual
/-- The type has no `null` or `undefined` among its top-level members. -/
def noNullUTop : Ty → Bool
  | .prim .pnull => false
  | .prim .pundefined => false
  | .union ms => noNullUTopL ms
  | _ => true
def noNullUTopL : TyList → Bool
  | .nil => true
  | .cons t r => noNullUTop t && noNullUTopL r
end

mutual
/-- The type has no `undefined` among its top-level members. -/
def noUndefTop : Ty → Bool
  | .prim .pundefined => false
  | .union ms => noUndefTopL ms
  | _ => true
def noUndefTopL : TyList → Bool
  | .nil => true
  | .cons t r => noUndefTop t && noUndefTopL r
end

mutual
/-- Every property at every nesting depth is non-optional and its declared
type has no `null`/`undefined` member — the shape `DeepNonNullable`
guarantees. -/
def dnnDone : Ty → Bool
  | .obj fs => dnnDoneF fs
  | .arr e => dnnDone e
  | .roarr e => dnnDone e
  | .union ms => dnnDoneL ms
  | _ => true
def dnnDoneF : Fields → Bool
  | .nil => true
  | .cons _ o _ ty rest => !o && noNullUTop ty && dnnDone ty && dnnDoneF rest
def dnnDoneL : TyList → Bool
  | .nil => true
  | .cons t r => dnnDone t && dnnDoneL r
end

mutual
/-- Every property at every nesting depth is non-optional and its declared
type has no `undefined` member — the shape `DeepRequired` guarantees
(`null` members may remain: `NonUndefined` does not strip them). -/
def drqDone : Ty → Bool
  | .obj fs => drqDoneF fs
  | .arr e => drqDone e
  | .roarr e => drqDone e
  | .union ms => drqDoneL ms
  | _ => true
def drqDoneF : Fields → Bool
  | .nil => true
  | .cons _ o _ ty rest => !o && noUndefTop ty && drqDone ty && drqDoneF rest
def drqDoneL : TyList → Bool
  | .nil => true
  | .cons t r => drqDone t && drqDoneL r
end

theorem noNullUTopL_eq_allL : (l : TyList) → noNullUTopL l = allL noNullUTop l
  | .nil => rfl
  | .cons t r => by rw [noNullUTopL, allL, noNullUTopL_eq_allL r]

theorem noUndefTopL_eq_allL : (l : TyList) → noUndefTopL l = allL noUndefTop l
  | .nil => rfl
  | .cons t r => by rw [noUndefTopL, allL, noUndefTopL_eq_allL r]

theorem dnnDoneL_eq_allL : (l : TyList) → dnnDoneL l = allL dnnDone l
  | .nil => rfl
  | .cons t r => by rw [dnnDoneL, allL, dnnDoneL_eq_allL r]

theorem drqDoneL_eq_allL : (l : TyList) → drqDoneL l = allL drqDone l
  | .nil => rfl
  | .cons t r => by rw [drqDoneL, allL, drqDoneL_eq_allL r]

mutual
theorem noNullU_deepNonNullableNN : (t : Ty) →
    noNullUTop (deepNonNullableNN t) = true
  | .prim .pundefined => rfl
  | .prim .pnull => rfl
  | .prim .pstring => rfl
  | .prim .pnumber => rfl
  | .prim .pboolean => rfl
  | .prim .psymbol => rfl
  | .never => rfl
  | .fn => rfl
  | .arr _ => rfl
  | .roarr _ => rfl
  | .obj _ => rfl
  | .union ms => by
      rw [deepNonNullableNN, deepNonNullableNNL_eq_mapL]
      exact p_mkUnion noNullUTop rfl
        (fun l h => by rwa [show noNullUTop (Ty.union l) = noNullUTopL l from rfl,
          noNullUTopL_eq_allL] at h)
        (fun l _ h => by rw [show noNullUTop (Ty.union l) = noNullUTopL l from rfl,
          noNullUTopL_eq_allL]; exact h)
        _ (noNullU_deepNonNullableNNL ms)
theorem noNullU_deepNonNullableNNL : (l : TyList) →
    allL noNullUTop (mapL deepNonNullableNN l) = true
  | .nil => rfl
  | .cons t r =>
      band_mpr (noNullU_deepNonNullableNN t) (noNullU_deepNonNullableNNL r)
end

mutual
theorem noUndef_deepRequiredNU : (t : Ty) →
    noUndefTop (deepRequiredNU t) = true
  | .prim .pundefined => rfl
  | .prim .pnull => rfl
  | .prim .pstring => rfl
  | .prim .pnumber => rfl
  | .prim .pboolean => rfl
  | .prim .psymbol => rfl
  | .never => rfl
  | .fn => rfl
  | .arr _ => rfl
  | .roarr _ => rfl
  | .obj _ => rfl
  | .union ms => by
      rw [deepRequiredNU, deepRequiredNUL_eq_mapL]
      exact p_mkUnion noUndefTop rfl
        (fun l h => by rwa [show noUndefTop (Ty.union l) = noUndefTopL l from rfl,
          noUndefTopL_eq_allL] at h)
        (fun l _ h => by rw [show noUndefTop (Ty.union l) = noUndefTopL l from rfl,
          noUndefTopL_eq_allL]; exact h)
        _ (noUndef_deepRequiredNUL ms)
theorem noUndef_deepRequiredNUL : (l : TyList) →
    allL noUndefTop (mapL deepRequiredNU l) = true
  | .nil => rfl
  | .cons t r =>
      band_mpr (noUndef_deepRequiredNU t) (noUndef_deepRequiredNUL r)
end

mutual
theorem dnnDone_deepNonNullable : (t : Ty) →
    dnnDone (DeepNonNullableTy t) = true
  | .prim _ => rfl
  | .never => rfl
  | .fn => rfl
  | .arr e => by
      rw [DeepNonNullableTy]
      exact dnnDone_deepNonNullableNN e
  | .roarr e => by
      rw [DeepNonNullableTy]
      exact dnnDone_deepNonNullableNN e
  | .obj fs => by
      rw [DeepNonNullableTy]
      exact dnnDoneF_deepNonNullableF fs
  | .union ms => by
      rw [DeepNonNullableTy, deepNonNullableL_eq_mapL]
      exact p_mkUnion dnnDone rfl
        (fun l h => by rwa [show dnnDone (Ty.union l) = dnnDoneL l from rfl,
          dnnDoneL_eq_allL] at h)
        (fun l _ h => by rw [show dnnDone (Ty.union l) = dnnDoneL l from rfl,
          dnnDoneL_eq_allL]; exact h)
        _ (dnnDone_deepNonNullableList ms)
theorem dnnDone_deepNonNullableNN : (t : Ty) →
    dnnDone (deepNonNullableNN t) = true
  | .prim .pundefined => rfl
  | .prim .pnull => rfl
  | .prim .pstring => rfl
  | .prim .pnumber => rfl
  | .prim .pboolean => rfl
  | .prim .psymbol => rfl
  | .never => rfl
  | .fn => rfl
  | .arr e => by
      rw [deepNonNullableNN]
      exact dnnDone_deepNonNullableNN e
  | .roarr e => by
      rw [deepNonNullableNN]
      exact dnnDone_deepNonNullableNN e
  | .obj fs => by
      rw [deepNonNullableNN]
      exact dnnDoneF_deepNonNullableF fs
  | .union ms => by
      rw [deepNonNullableNN, deepNonNullableNNL_eq_mapL]
      exact p_mkUnion dnnDone rfl
        (fun l h => by rwa [show dnnDone (Ty.union l) = dnnDoneL l from rfl,
          dnnDoneL_eq_allL] at h)
        (fun l _ h => by rw [show dnnDone (Ty.union l) = dnnDoneL l from rfl,
          dnnDoneL_eq_allL]; exact h)
        _ (dnnDone_deepNonNullableNNList ms)
theorem dnnDoneF_deepNonNullableF : (fs : Fields) →
    dnnDoneF (deepNonNullableF fs) = true
  | .nil => rfl
  | .cons n o r ty rest => by
      rw [deepNonNullableF, dnnDoneF]
      simp [noNullU_deepNonNullableNN ty, dnnDone_deepNonNullableNN ty,
        dnnDoneF_deepNonNullableF rest]
theorem dnnDone_deepNonNullableList : (l : TyList) →
    allL dnnDone (mapL DeepNonNullableTy l) = true
  | .nil => rfl
  | .cons t r =>
      band_mpr (dnnDone_deepNonNullable t) (dnnDone_deepNonNullableList r)
theorem dnnDone_deepNonNullableNNList : (l : TyList) →
    allL dnnDone (mapL deepNonNullableNN l) = true
  | .nil => rfl
  | .cons t r =>
      band_mpr (dnnDone_deepNonNullableNN t) (dnnDone_deepNonNullableNNList r)
end

mutual
theorem drqDone_deepRequired : (t : Ty) → drqDone (DeepRequiredTy t) = true
  | .prim _ => rfl
  | .never => rfl
  | .fn => rfl
  | .arr e => by
      rw [DeepRequiredTy]
      exact drqDone_deepRequiredNU e
  | .roarr e => by
      rw [DeepRequiredTy]
      exact drqDone_deepRequiredNU e
  | .obj fs => by
      rw [DeepRequiredTy]
      exact drqDoneF_deepRequiredF fs
  | .union ms => by
      rw [DeepRequiredTy, deepRequiredL_eq_mapL]
      exact p_mkUnion drqDone rfl
        (fun l h => by rwa [show drqDone (Ty.union l) = drqDoneL l from rfl,
          drqDoneL_eq_allL] at h)
        (fun l _ h => by rw [show drqDone (Ty.union l) = drqDoneL l from rfl,
          drqDoneL_eq_allL]; exact h)
        _ (drqDone_deepRequiredList ms)
theorem drqDone_deepRequiredNU : (t : Ty) → drqDone (deepRequiredNU t) = true
  | .prim .pundefined => rfl
  | .prim .pnull => rfl
  | .prim .pstring => rfl
  | .prim .pnumber => rfl
  | .prim .pboolean => rfl
  | .prim .psymbol => rfl
  | .never => rfl
  | .fn => rfl
  | .arr e => by
      rw [deepRequiredNU]
      exact drqDone_deepRequiredNU e
  | .roarr e => by
      rw [deepRequiredNU]
      exact drqDone_deepRequiredNU e
  | .obj fs => by
      rw [deepRequiredNU]
      exact drqDoneF_deepRequiredF fs
  | .union ms => by
      rw [deepRequiredNU, deepRequiredNUL_eq_mapL]
      exact p_mkUnion drqDone rfl
        (fun l h => by rwa [show drqDone (Ty.union l) = drqDoneL l from rfl,
          drqDoneL_eq_allL] at h)
        (fun l _ h => by rw [show drqDone (Ty.union l) = drqDoneL l from rfl,
          drqDoneL_eq_allL]; exact h)
        _ (drqDone_deepRequiredNUList ms)
theorem drqDoneF_deepRequiredF : (fs : Fields) →
    drqDoneF (deepRequiredF fs) = true
  | .nil => rfl
  | .cons n o r ty rest => by
      rw [deepRequiredF, drqDoneF]
      simp [noUndef_deepRequiredNU ty, drqDone_deepRequiredNU ty,
        drqDoneF_deepRequiredF rest]
theorem drqDone_deepRequiredList : (l : TyList) →
    allL drqDone (mapL DeepRequiredTy l) = true
  | .nil => rfl
  | .cons t r =>
      band_mpr (drqDone_deepRequired t) (drqDone_deepRequiredList r)
theorem drqDone_deepRequiredNUList : (l : TyList) →
    allL drqDone (mapL deepRequiredNU l) = true
  | .nil => rfl
  | .cons t r =>
      band_mpr (drqDone_deepRequiredNU t) (drqDone_deepRequiredNUList r)
end

/- ## Instances: a value model and schema conformance

Used to state the mutual-exclusivity property of `MergeExclusive`: a value
conforms to an object type if every declared property is either present with
a conforming value or omitted-and-optional (extra properties are allowed, as
in structural typing); no value conforms to `never`. -/

mutual
inductive Val where
  | vnull
  | vundef
  | vstr (s : String)
  | vnum (n : Int)
  | vbool (b : Bool)
  | vsym
  | vfn
  | varr (es : ValList)
  | vobj (fs : VFields)
deriving DecidableEq, Repr
inductive ValList where
  | nil
  | cons (v : Val) (rest : ValList)
deriving DecidableEq, Repr
inductive VFields where
  | nil
  | cons (name : String) (v : Val) (rest : VFields)
deriving DecidableEq, Repr
end

/-- Look up a property value by name. -/
def lookupV : VFields → String → Option Val
  | .nil, _ => none
  | .cons n v rest, m => if n == m then some v else lookupV rest m

mutual
def szVal : Val → Nat
  | .varr es => 1 + szVL es
  | .vobj fs => 1 + szVF fs
  | _ => 1
def szVL : ValList → Nat
  | .nil => 1
  | .cons v rest => 1 + szVal v + szVL rest
def szVF : VFields → Nat
  | .nil => 1
  | .cons _ v rest => 1 + szVal v + szVF rest
end

mutual
/-- Fuel-bounded conformance check of a value against a type. -/
def hasTypeF : Nat → Val → Ty → Bool
  | 0, _, _ => false
  | n + 1, v, t =>
      match t with
      | .never => false
      | .prim .pnull => v == Val.vnull
      | .prim .pundefined => v == Val.vundef
      | .prim .pstring => (match v with | .vstr _ => true | _ => false)
      | .prim .pnumber => (match v with | .vnum _ => true | _ => false)
      | .prim .pboolean => (match v with | .vbool _ => true | _ => false)
      | .prim .psymbol => v == Val.vsym
      | .fn => v == Val.vfn
      | .arr e => (match v with | .varr es => hasTypeLF n es e | _ => false)
      | .roarr e => (match v with | .varr es => hasTypeLF n es e | _ => false)
      | .obj fs => (match v with | .vobj vfs => hasFieldsF n vfs fs | _ => false)
      | .union ms => hasAnyF n v ms
def hasTypeLF : Nat → ValList → Ty → Bool
  | _, .nil, _ => true
  | 0, .cons _ _, _ => false
  | n + 1, .cons v r, e => hasTypeF n v e && hasTypeLF n r e
def hasFieldsF : Nat → VFields → Fields → Bool
  | _, _, .nil => true
  | 0, _, .cons _ _ _ _ _ => false
  | n + 1, vfs, .cons m o _ ty rest =>
      (match lookupV vfs m with
       | some v => hasTypeF n v ty
       | none => o) && hasFieldsF n vfs rest
def hasAnyF : Nat → Val → TyList → Bool
  | _, _, .nil => false
  | 0, _, .cons _ _ => false
  | n + 1, v, .cons t r => hasTypeF n v t || hasAnyF n v r
end

/-- Conformance of a value to a type, with fuel seeded from the sizes. -/
def hasType (v : Val) (t : Ty) : Bool :=
  hasTypeF (szVal v + szTy t + 1) v t

/-- No value conforms to `never`, at any fuel. -/
theorem hasTypeF_never : ∀ n v, hasTypeF n v Ty.never = false
  | 0, _ => rfl
  | n + 1, v => rfl

/-- A value that supplies property `m` cannot conform to an object type
whose first declared property is `m : never` (optional or not): the
present value would have to conform to `never`. -/
theorem hasTypeF_obj_never_first (n : Nat) (vfs : VFields) (m : String)
    (o r : Bool) (rest : Fields) (x : Val) (hx : lookupV vfs m = some x) :
    hasTypeF n (Val.vobj vfs) (Ty.obj (.cons m o r Ty.never rest)) = false := by
  cases n with
  | zero => rfl
  | succ k =>
      rw [show hasTypeF (k + 1) (Val.vobj vfs) (Ty.obj (.cons m o r Ty.never rest)) =
          hasFieldsF k vfs (.cons m o r Ty.never rest) from rfl]
      cases k with
      | zero => rfl
      | succ j =>
          rw [hasFieldsF, hx]
          show (hasTypeF j x Ty.never && hasFieldsF j vfs rest) = false
          rw [hasTypeF_never]
          rfl

/- ## Helper lemmas for the projection and merge claims -/

theorem filterF_false : (fs : Fields) → filterF (fun _ => false) fs = .nil
  | .nil => rfl
  | .cons n o r ty rest => by
      rw [filterF, if_neg (by simp)]
      exact filterF_false rest

theorem filterF_of_allNames (p : String → Bool) :
    (fs : Fields) → (∀ n, n ∈ namesF fs → p n = true) → filterF p fs = fs
  | .nil, _ => rfl
  | .cons n o r ty rest, h => by
      rw [filterF, if_pos (h n (by rw [namesF]; exact List.mem_cons_self n _))]
      rw [filterF_of_allNames p rest (fun m hm => h m (by rw [namesF]; exact List.mem_cons_of_mem n hm))]

theorem namesF_filterF (p : String → Bool) :
    (fs : Fields) → namesF (filterF p fs) = (namesF fs).filter p
  | .nil => rfl
  | .cons n o r ty rest => by
      rw [filterF, namesF]
      by_cases h : p n = true
      · rw [if_pos h, namesF, namesF_filterF p rest, List.filter_cons_of_pos h]
      · rw [if_neg h, namesF_filterF p rest,
          List.filter_cons_of_neg (by simpa using h)]

theorem subTy_refl (t : Ty) : subTy t t = true := by
  rw [subTy]
  exact bor_mpr_left (by simp)

/- ## Concrete fixture schemas (the documented examples of `src/object.ts`) -/

def strT : Ty := .prim .pstring
def numT : Ty := .prim .pnumber
def boolT : Ty := .prim .pboolean

/-- `Props = { name: string; age: number; visible: boolean }`. -/
def PropsT : Ty :=
  .obj (.cons "name" false false strT
    (.cons "age" false false numT
      (.cons "visible" false false boolT .nil)))

/-- `NewProps = { age: string; other: string }`. -/
def NewPropsT : Ty :=
  .obj (.cons "age" false false strT
    (.cons "other" false false strT .nil))

theorem contains_iff_mem (l : List String) (x : String) :
    l.contains x = true ↔ x ∈ l := by
  induction l with
  | nil => simp
  | cons h t ih => simp

theorem contains_eq_false_of_not_mem (l : List String) (x : String)
    (h : ¬(x ∈ l)) : l.contains x = false := by
  cases hx : l.contains x
  · rfl
  · exact absurd ((contains_iff_mem l x).mp hx) h

/-- On a name of `N`, membership in `Substract N ks` is the negation of
membership in `ks`. -/
theorem substract_contains (N ks : List String) (n : String) (hn : n ∈ N) :
    (Substract N ks).contains n = !(ks.contains n) := by
  by_cases hc : n ∈ ks
  · rw [(contains_iff_mem ks n).mpr hc]
    show (Substract N ks).contains n = false
    apply contains_eq_false_of_not_mem
    rw [Substract]
    intro hmem
    rw [List.mem_filter] at hmem
    have := hmem.2
    rw [(contains_iff_mem ks n).mpr hc] at this
    exact absurd this (by simp)
  · rw [contains_eq_false_of_not_mem ks n hc]
    show (Substract N ks).contains n = true
    apply (contains_iff_mem _ _).mpr
    rw [Substract, List.mem_filter]
    exact ⟨hn, by rw [contains_eq_false_of_not_mem ks n hc]; rfl⟩

/-- Two name predicates agreeing on the property names of `fs` filter `fs`
identically. -/
theorem filterF_congr (p q : String → Bool) :
    (fs : Fields) → (∀ n, n ∈ namesF fs → p n = q n) →
      filterF p fs = filterF q fs
  | .nil, _ => rfl
  | .cons n o r ty rest, h => by
      rw [filterF, filterF, h n (by rw [namesF]; exact List.mem_cons_self n _),
        filterF_congr p q rest
          (fun m hm => h m (by rw [namesF]; exact List.mem_cons_of_mem n hm))]

/- ## Claim theorems -/

/-- Claim C1 (code_bug).  The claim — and the source's own doc comment —
say `Complement(A, A1)` returns the names present in `A` and absent from
`A1`, e.g. `{"1"}` for `A = {"1","2","3"}`, `A1 = {"2","3"}`.  The code is
`Substract<A, A>`, which is empty for every input: here we evaluate it at
the documented example (first conjunct) and show it is empty for all
inputs (second conjunct), never the documented `{"1"}`. -/
theorem Complement_always_empty :
    Complement ["1", "2", "3"] ["2", "3"] = [] ∧
    (∀ a a1 : List String, Complement a a1 = []) ∧
    (["1"] : List String) ≠ [] := by
  refine ⟨rfl, fun a a1 => ?_, by decide⟩
  rw [Complement, Substract]
  rw [List.filter_eq_nil_iff]
  intro x hx
  simpa using hx

/-- Claim C2 (code_bug).  The claim — matching the source's doc example —
says `MergeOverride({name:string, age:number, visible:boolean},
{age:string, other:string})` is `{name:string, age:string,
visible:boolean}`.  The code computes `ObjectSubtract<T,U> &
Intersect<U,T>` where `Intersect` is the union-level `Extract`, and
`U extends T` fails (U lacks `name` and `visible`), so the intersection
collapses to `never` and the whole result is `never`, not the documented
record. -/
theorem MergeOverride_documented_example_collapses :
    MergeOverride PropsT NewPropsT = .ok Ty.never ∧
    Ty.never ≠ .obj (.cons "name" false false strT
      (.cons "age" false false strT
        (.cons "visible" false false boolT .nil))) := by
  exact ⟨rfl, by decide⟩

/-- Claim C3 (code_bug).  The claim says the field-name set of
`Merge(T, U)` is the union of the two field-name sets — on the documented
example `{name, age, visible, other}`.  As in `MergeOverride`, the
union-level `Intersect<U,T>` collapses to `never`, so `Merge` of the
documented example is `never`: it has no fields at all, refuting the
additivity law. -/
theorem Merge_documented_example_collapses :
    Merge PropsT NewPropsT = .ok Ty.never ∧
    Ty.never ≠ .obj (.cons "name" false false strT
      (.cons "age" false false strT
        (.cons "visible" false false boolT
          (.cons "other" false false strT .nil)))) := by
  exact ⟨rfl, by decide⟩

/-- Claim C4 (confirmed).  `MergeOverride(T, T) = T` for every record
schema `T`.  With `U = T` the `Extract` succeeds (`T extends T`), the
subtraction is empty, and `Pick<I, keyof I>` rebuilds exactly `T`'s
property list. -/
theorem MergeOverride_self_identity (fs : Fields) :
    MergeOverride (Ty.obj fs) (Ty.obj fs) = .ok (Ty.obj fs) := by
  have h1 : Substract (keyofTy (Ty.obj fs)) (keyofTy (Ty.obj fs)) = [] := by
    rw [Substract, keyofTy, List.filter_eq_nil_iff]
    intro x hx
    simpa using hx
  have h2 : objectSubtractC (Ty.obj fs) (Ty.obj fs) = Ty.obj Fields.nil := by
    rw [objectSubtractC, h1]
    show Ty.obj (filterF (fun n => List.contains [] n) fs) = Ty.obj Fields.nil
    rw [show (fun n => List.contains [] n) = (fun _ : String => false) from rfl]
    rw [filterF_false fs]
  have h3 : IntersectTy (Ty.obj fs) (Ty.obj fs) = Ty.obj fs := by
    show (if subTy (Ty.obj fs) (Ty.obj fs) = true then Ty.obj fs else Ty.never) =
      Ty.obj fs
    rw [subTy_refl]
    rfl
  have h5 : PickTy (Ty.obj fs) (keyofTy (Ty.obj fs)) = Ty.obj fs := by
    rw [keyofTy]
    show Ty.obj (filterF (fun n => (namesF fs).contains n) fs) = Ty.obj fs
    rw [filterF_of_allNames _ fs (fun n hn => (contains_iff_mem (namesF fs) n).mpr hn)]
  show Except.ok (PickTy
      (interTy (objectSubtractC (Ty.obj fs) (Ty.obj fs))
        (IntersectTy (Ty.obj fs) (Ty.obj fs)))
      (keyofTy (interTy (objectSubtractC (Ty.obj fs) (Ty.obj fs))
        (IntersectTy (Ty.obj fs) (Ty.obj fs))))) = .ok (Ty.obj fs)
  rw [h2, h3]
  rw [show interTy (Ty.obj Fields.nil) (Ty.obj fs) = Ty.obj fs from rfl]
  rw [h5]

/-- Claim C5 (confirmed).  Each of the four deep transform rules is
idempotent: applying it twice yields the same schema as applying it once,
for every schema. -/
theorem deep_transforms_idempotent (s : Ty) :
    DeepReadonlyTy (DeepReadonlyTy s) = DeepReadonlyTy s ∧
    DeepPartialTy (DeepPartialTy s) = DeepPartialTy s ∧
    DeepRequiredTy (DeepRequiredTy s) = DeepRequiredTy s ∧
    DeepNonNullableTy (DeepNonNullableTy s) = DeepNonNullableTy s :=
  ⟨deepReadonly_idem s, deepPartial_idem s, deepRequired_idem s,
    deepNonNullable_idem s⟩

/-- Claim C6, amended (corrected).  `DeepNonNullable` removes the
null/undefined alternatives from every field's shape at every depth, and —
because `_DeepNonNullableObject` uses the `-?` modifier — it also clears
every field's `optional` flag (the original claim said `optional` is left
exactly as it was). -/
theorem deepNonNullable_strips_nullability_and_optionality (s : Ty) :
    dnnDone (DeepNonNullableTy s) = true :=
  dnnDone_deepNonNullable s

/-- Claim C6 counterexample.  For `S = {a?: string}` the claim as stated
(nullable cleared, null/undefined removed, `optional` untouched) forces
`DeepNonNullable(S) = S`; the code instead drops the `?` and returns
`{a: string} ≠ S`. -/
theorem deepNonNullable_changes_optional_cex :
    DeepNonNullableTy (Ty.obj (.cons "a" true false strT .nil)) =
      Ty.obj (.cons "a" false false strT .nil) ∧
    DeepNonNullableTy (Ty.obj (.cons "a" true false strT .nil)) ≠
      Ty.obj (.cons "a" true false strT .nil) := by
  exact ⟨rfl, by decide⟩

/-- Claim C7, amended (corrected).  `DeepRequired` clears every field's
`optional` flag at every depth and strips the `undefined` alternative from
the field's shape before recursing — but only `undefined`: the code applies
`NonUndefined`, which leaves `null` alternatives in place (the original
claim said both null and undefined are stripped). -/
theorem deepRequired_clears_optional_strips_undefined (s : Ty) :
    drqDone (DeepRequiredTy s) = true :=
  drqDone_deepRequired s

/-- Claim C7 counterexample.  For `S = {a?: null | string}` the claim as
stated says the result field's shape has the null alternative stripped;
the code returns `{a: null | string}`, whose shape still contains the
`null` member. -/
theorem deepRequired_preserves_null_cex :
    DeepRequiredTy (Ty.obj (.cons "a" true false
        (Ty.union (.cons (.prim .pnull) (.cons strT .nil))) .nil)) =
      Ty.obj (.cons "a" false false
        (Ty.union (.cons (.prim .pnull) (.cons strT .nil))) .nil) ∧
    noNullUTop (Ty.union (.cons (.prim .pnull) (.cons strT .nil))) = false := by
  exact ⟨rfl, rfl⟩

/-- Claim C8, amended (corrected).  When every requested name is a field
name of the record, `PickByKey` keeps exactly the requested names and
`OmitByKey` keeps exactly the complement `N \ K`.  When some requested
name is unknown, *both* operations fail with `UnknownKeyError`: the source
constrains `KeyType extends keyof ObjectType` on `OmitByKey` too, so
omission is not permissive as the original claim said. -/
theorem key_projection_laws (fs : Fields) (ks : List String) :
    ((∀ k, k ∈ ks → k ∈ namesF fs) →
      PickByKey (Ty.obj fs) ks =
        .ok (.obj (filterF (fun n => ks.contains n) fs)) ∧
      OmitByKey (Ty.obj fs) ks =
        .ok (.obj (filterF (fun n => !(ks.contains n)) fs)) ∧
      (∀ n, n ∈ namesF (filterF (fun n => ks.contains n) fs) ↔ n ∈ ks) ∧
      (∀ n, n ∈ namesF (filterF (fun n => !(ks.contains n)) fs) ↔
        (n ∈ namesF fs ∧ ¬(n ∈ ks)))) ∧
    ((∃ k, k ∈ ks ∧ ¬(k ∈ namesF fs)) →
      ∃ k, PickByKey (Ty.obj fs) ks = .error (.unknownKey k) ∧
           OmitByKey (Ty.obj fs) ks = .error (.unknownKey k)) := by
  constructor
  · intro hsub
    have hnone : ks.find? (fun n => !((keyofTy (Ty.obj fs)).contains n)) = none := by
      rw [List.find?_eq_none]
      intro x hx
      simp only [keyofTy]
      simpa using hsub x hx
    refine ⟨?_, ?_, ?_, ?_⟩
    · simp only [PickByKey, hnone]
      rfl
    · simp only [OmitByKey, hnone]
      have he : PickTy (Ty.obj fs) (Substract (keyofTy (Ty.obj fs)) ks) =
          Ty.obj (filterF (fun n => !(ks.contains n)) fs) := by
        rw [keyofTy, PickTy]
        rw [filterF_congr (fun n => (Substract (namesF fs) ks).contains n)
          (fun n => !(ks.contains n)) fs
          (fun n hn => substract_contains (namesF fs) ks n hn)]
      rw [he]
    · intro n
      rw [namesF_filterF, List.mem_filter]
      constructor
      · intro hpair
        exact (contains_iff_mem ks n).mp hpair.2
      · intro hn
        exact ⟨hsub n hn, (contains_iff_mem ks n).mpr hn⟩
    · intro n
      rw [namesF_filterF, List.mem_filter]
      constructor
      · intro hpair
        refine ⟨hpair.1, fun hk => ?_⟩
        have := hpair.2
        rw [(contains_iff_mem ks n).mpr hk] at this
        exact absurd this (by simp)
      · intro hpair
        refine ⟨hpair.1, ?_⟩
        have hc : ks.contains n = false := by
          cases hx : ks.contains n
          · rfl
          · exact absurd ((contains_iff_mem ks n).mp hx) hpair.2
        rw [hc]
        rfl
  · intro hex
    obtain ⟨k, hk, hnk⟩ := hex
    cases hfind : ks.find? (fun n => !((keyofTy (Ty.obj fs)).contains n)) with
    | none =>
        rw [List.find?_eq_none] at hfind
        have hp := hfind k hk
        rw [keyofTy] at hp
        have hc : (namesF fs).contains k = true := by
          cases hx : (namesF fs).contains k
          · rw [hx] at hp
            exact absurd rfl hp
          · rfl
        exact absurd ((contains_iff_mem _ k).mp hc) hnk
    | some k2 =>
        refine ⟨k2, ?_, ?_⟩
        · simp only [PickByKey, hfind]
        · simp only [OmitByKey, hfind]

/-- Witness for C8's amended theorem at `R = {a: string}`: picking the
known key `"a"` succeeds, and projecting with the unknown key `"b"` makes
both operations fail with `UnknownKeyError "b"`. -/
theorem key_projection_laws_witness :
    PickByKey (Ty.obj (.cons "a" false false strT .nil)) ["a"] =
      .ok (.obj (.cons "a" false false strT .nil)) ∧
    (∃ k, PickByKey (Ty.obj (.cons "a" false false strT .nil)) ["b"] =
        .error (.unknownKey k) ∧
      OmitByKey (Ty.obj (.cons "a" false false strT .nil)) ["b"] =
        .error (.unknownKey k)) := by
  constructor
  · have h := ((key_projection_laws (.cons "a" false false strT .nil) ["a"]).1
      (by intro k hk; simpa [namesF] using hk)).1
    rw [h]
    rfl
  · exact (key_projection_laws (.cons "a" false false strT .nil) ["b"]).2
      ⟨"b", by simp, by simp [namesF]⟩

/-- Claim C8 counterexample.  The original claim says unknown names in `K`
are ignored by `OmitByKey` (no error): at `R = {a: string}`, `K = {"b"}`
it predicts the record `{a : string}`; the code raises `UnknownKeyError`. -/
theorem omitByKey_unknown_key_cex :
    OmitByKey (Ty.obj (.cons "a" false false strT .nil)) ["b"] =
      .error (.unknownKey "b") ∧
    OmitByKey (Ty.obj (.cons "a" false false strT .nil)) ["b"] ≠
      .ok (Ty.obj (.cons "a" false false strT .nil)) := by
  refine ⟨rfl, fun h => ?_⟩
  rw [show OmitByKey (Ty.obj (.cons "a" false false strT .nil)) ["b"] =
    Except.error (SchemaError.unknownKey "b") from rfl] at h
  exact Except.noConfusion h

/-- A value supplying both exclusive properties fails against a union of
two object variants each of which forbids one of them with `never`. -/
theorem hasAnyF_two_never (n : Nat) (vfs : VFields) (a b : String)
    (o1 r1 o2 r2 : Bool) (rest1 rest2 : Fields) (x y : Val)
    (hx : lookupV vfs a = some x) (hy : lookupV vfs b = some y) :
    hasAnyF n (Val.vobj vfs)
      (.cons (Ty.obj (.cons a o1 r1 .never rest1))
        (.cons (Ty.obj (.cons b o2 r2 .never rest2)) .nil)) = false := by
  cases n with
  | zero => rfl
  | succ j =>
      rw [hasAnyF, hasTypeF_obj_never_first j vfs a o1 r1 rest1 x hx,
        Bool.false_or]
      cases j with
      | zero => rfl
      | succ i =>
          rw [hasAnyF, hasTypeF_obj_never_first i vfs b o2 r2 rest2 y hy,
            Bool.false_or, hasAnyF]

/-- Claim C9 (confirmed).  For `T = {a, shared}` and `U = {b, shared}` with
distinct names, `MergeExclusive(T, U)` is a union of exactly two object
variants: `_Without<T,U> & U` (field set `{b, shared}` plus `a` forced to
the impossible `a?: never`) and `_Without<U,T> & T` (field set `{a, shared}`
plus `b?: never`); and no instance may legally carry both `a` and `b`: a
value object supplying both properties conforms to neither variant, hence
not to the union. -/
theorem mergeExclusive_mutual_exclusivity
    (a b sh : String) (ta tb ts ts2 : Ty)
    (hab : a ≠ b) (has2 : a ≠ sh) (hbs : b ≠ sh) :
    MergeExclusive
        (Ty.obj (.cons a false false ta (.cons sh false false ts .nil)))
        (Ty.obj (.cons b false false tb (.cons sh false false ts2 .nil))) =
      Ty.union (.cons
        (Ty.obj (.cons a true false .never
          (.cons b false false tb (.cons sh false false ts2 .nil))))
        (.cons
          (Ty.obj (.cons b true false .never
            (.cons a false false ta (.cons sh false false ts .nil))))
          .nil)) ∧
    (∀ vfs x y, lookupV vfs a = some x → lookupV vfs b = some y →
      hasType (Val.vobj vfs)
        (MergeExclusive
          (Ty.obj (.cons a false false ta (.cons sh false false ts .nil)))
          (Ty.obj (.cons b false false tb (.cons sh false false ts2 .nil))))
        = false) := by
  have hba : (b == a) = false := beq_eq_false_iff_ne.mpr (Ne.symm hab)
  have habq : (a == b) = false := beq_eq_false_iff_ne.mpr hab
  have hsa : (sh == a) = false := beq_eq_false_iff_ne.mpr (Ne.symm has2)
  have hsb : (sh == b) = false := beq_eq_false_iff_ne.mpr (Ne.symm hbs)
  have hca : List.contains [b, sh] a = false :=
    contains_eq_false_of_not_mem _ _ (by simp; exact ⟨hab, has2⟩)
  have hcb : List.contains [a, sh] b = false :=
    contains_eq_false_of_not_mem _ _ (by simp; exact ⟨Ne.symm hab, hbs⟩)
  have hcs1 : List.contains [b, sh] sh = true :=
    (contains_iff_mem _ _).mpr (by simp)
  have hcs2 : List.contains [a, sh] sh = true :=
    (contains_iff_mem _ _).mpr (by simp)
  have hsub1 : Substract [a, sh] [b, sh] = [a] := by
    rw [Substract]
    simp [List.filter_cons]
    exact ⟨hab, has2⟩
  have hsub2 : Substract [b, sh] [a, sh] = [b] := by
    rw [Substract]
    simp [List.filter_cons]
    exact ⟨Ne.symm hab, hbs⟩
  have hlkA : lookupF (.cons b false false tb (.cons sh false false ts2 .nil)) a
      = none := by
    rw [lookupF, if_neg (by simp [hba]), lookupF, if_neg (by simp [hsa]), lookupF]
  have hlkB : lookupF (.cons a false false ta (.cons sh false false ts .nil)) b
      = none := by
    rw [lookupF, if_neg (by simp [habq]), lookupF, if_neg (by simp [hsb]), lookupF]
  have hV1 : interTy (Ty.obj (.cons a true false .never .nil))
      (Ty.obj (.cons b false false tb (.cons sh false false ts2 .nil))) =
      Ty.obj (.cons a true false .never
        (.cons b false false tb (.cons sh false false ts2 .nil))) := by
    show Ty.obj (interFields (.cons a true false .never .nil)
      (.cons b false false tb (.cons sh false false ts2 .nil))) = _
    rw [interFields, hlkA]
    rfl
  have hV2 : interTy (Ty.obj (.cons b true false .never .nil))
      (Ty.obj (.cons a false false ta (.cons sh false false ts .nil))) =
      Ty.obj (.cons b true false .never
        (.cons a false false ta (.cons sh false false ts .nil))) := by
    show Ty.obj (interFields (.cons b true false .never .nil)
      (.cons a false false ta (.cons sh false false ts .nil))) = _
    rw [interFields, hlkB]
    rfl
  have hne12 : ((Ty.obj (.cons a true false Ty.never
      (.cons b false false tb (.cons sh false false ts2 .nil)))) ==
      (Ty.obj (.cons b true false Ty.never
        (.cons a false false ta (.cons sh false false ts .nil))))) = false := by
    apply beq_eq_false_iff_ne.mpr
    intro h
    injection h with h1
    injection h1 with hname
    exact hab hname
  have hmk : mkUnion (.cons (Ty.obj (.cons a true false .never
        (.cons b false false tb (.cons sh false false ts2 .nil))))
      (.cons (Ty.obj (.cons b true false .never
        (.cons a false false ta (.cons sh false false ts .nil)))) .nil)) =
      Ty.union (.cons (Ty.obj (.cons a true false .never
        (.cons b false false tb (.cons sh false false ts2 .nil))))
      (.cons (Ty.obj (.cons b true false .never
        (.cons a false false ta (.cons sh false false ts .nil)))) .nil)) := by
    apply mkUnion_eq_self
    rw [structNorm]
    simp [atLeast2, allL, notUnion, notNever, nodupL, memT, hne12]
  have hME : MergeExclusive
      (Ty.obj (.cons a false false ta (.cons sh false false ts .nil)))
      (Ty.obj (.cons b false false tb (.cons sh false false ts2 .nil))) =
      Ty.union (.cons (Ty.obj (.cons a true false .never
        (.cons b false false tb (.cons sh false false ts2 .nil))))
      (.cons (Ty.obj (.cons b true false .never
        (.cons a false false ta (.cons sh false false ts .nil)))) .nil)) := by
    rw [MergeExclusive]
    have hcnd : (isObjectLike (Ty.obj (.cons a false false ta
        (.cons sh false false ts .nil))) &&
      isObjectLike (Ty.obj (.cons b false false tb
        (.cons sh false false ts2 .nil)))) = true := rfl
    rw [if_pos hcnd, WithoutTy, WithoutTy]
    rw [show keyofTy (Ty.obj (.cons a false false ta
      (.cons sh false false ts .nil))) = [a, sh] from rfl]
    rw [show keyofTy (Ty.obj (.cons b false false tb
      (.cons sh false false ts2 .nil))) = [b, sh] from rfl]
    rw [hsub1, hsub2]
    rw [show neverFields [a] = (Fields.cons a true false Ty.never .nil) from rfl]
    rw [show neverFields [b] = (Fields.cons b true false Ty.never .nil) from rfl]
    rw [hV1, hV2, hmk]
  refine ⟨hME, ?_⟩
  intro vfs x y hx hy
  rw [hME, hasType]
  exact hasAnyF_two_never _ vfs a b true false true false _ _ x y hx hy

/-- Witness for C9 at `T = {a: string, shared: number}`,
`U = {b: boolean, shared: number}` and the instance
`{a: "x", b: true, shared: 1}`, which carries both exclusive properties
and conforms to neither variant. -/
theorem mergeExclusive_mutual_exclusivity_witness :
    MergeExclusive
        (Ty.obj (.cons "a" false false strT (.cons "shared" false false numT .nil)))
        (Ty.obj (.cons "b" false false boolT (.cons "shared" false false numT .nil))) =
      Ty.union (.cons
        (Ty.obj (.cons "a" true false .never
          (.cons "b" false false boolT (.cons "shared" false false numT .nil))))
        (.cons
          (Ty.obj (.cons "b" true false .never
            (.cons "a" false false strT (.cons "shared" false false numT .nil))))
          .nil)) ∧
    hasType (Val.vobj (.cons "a" (Val.vstr "x")
        (.cons "b" (Val.vbool true) (.cons "shared" (Val.vnum 1) .nil))))
      (MergeExclusive
        (Ty.obj (.cons "a" false false strT (.cons "shared" false false numT .nil)))
        (Ty.obj (.cons "b" false false boolT (.cons "shared" false false numT .nil))))
      = false := by
  obtain ⟨h1, h2⟩ := mergeExclusive_mutual_exclusivity "a" "b" "shared"
    strT boolT numT numT (by decide) (by decide) (by decide)
  exact ⟨h1, h2 _ (Val.vstr "x") (Val.vbool true) (by decide) (by decide)⟩

/-- Claim C10, amended (corrected).  Non-Record inputs are rejected only
where the source constrains them.  The `extends object`-constrained merge
operations — `ObjectIntersect`, `ObjectSubtract`, `MergeOverride`, `Merge`
in either position, and `ObjectComplement` in its object-constrained
second position — fail with `StructuralPreconditionError` on a primitive
schema, but Sequence and Opaque schemas satisfy `extends object` and are
not rejected.  `PickByKey` and `OmitByKey` carry only the `KeyType extends
keyof ObjectType` constraint: on a primitive schema the key universe is
empty, so any requested name fails with `UnknownKeyError` while the empty
selection succeeds with the empty record.  `PickByValue` and `OmitByValue`
are unconstrained and total, and `MergeExclusive` never fails: with a
primitive input it returns the plain union of its two inputs. -/
theorem projection_merge_non_record_behaviour (k : PrimKind) (u v : Ty)
    (ks : List String) (m : String) :
    ObjectIntersect (Ty.prim k) u = .error .structuralPrecondition ∧
    ObjectIntersect u (Ty.prim k) = .error .structuralPrecondition ∧
    ObjectSubtract (Ty.prim k) u = .error .structuralPrecondition ∧
    ObjectSubtract u (Ty.prim k) = .error .structuralPrecondition ∧
    MergeOverride (Ty.prim k) u = .error .structuralPrecondition ∧
    MergeOverride u (Ty.prim k) = .error .structuralPrecondition ∧
    Merge (Ty.prim k) u = .error .structuralPrecondition ∧
    Merge u (Ty.prim k) = .error .structuralPrecondition ∧
    ObjectComplement u (Ty.prim k) = .error .structuralPrecondition ∧
    MergeOverride (Ty.arr v) (Ty.obj .nil) ≠ .error .structuralPrecondition ∧
    Merge Ty.fn (Ty.obj .nil) ≠ .error .structuralPrecondition ∧
    PickByKey (Ty.prim k) [] = .ok (Ty.obj .nil) ∧
    PickByKey (Ty.prim k) (m :: ks) = .error (.unknownKey m) ∧
    OmitByKey (Ty.prim k) [] = .ok (Ty.obj .nil) ∧
    OmitByKey (Ty.prim k) (m :: ks) = .error (.unknownKey m) ∧
    PickByValue (Ty.prim k) v = Ty.obj .nil ∧
    OmitByValue (Ty.prim k) v = Ty.obj .nil ∧
    MergeExclusive (Ty.prim k) u = mkUnion (.cons (Ty.prim k) (.cons u .nil)) := by
  refine ⟨by simp [ObjectIntersect, isObjectLike],
    by simp [ObjectIntersect, isObjectLike],
    by simp [ObjectSubtract, isObjectLike],
    by simp [ObjectSubtract, isObjectLike],
    by simp [MergeOverride, isObjectLike],
    by simp [MergeOverride, isObjectLike],
    by simp [Merge, isObjectLike],
    by simp [Merge, isObjectLike],
    by simp [ObjectComplement, isObjectLike],
    ?_, ?_, rfl, rfl, rfl, rfl, rfl, rfl,
    by rw [MergeExclusive, if_neg (by simp [isObjectLike])]⟩
  · intro h
    rw [show MergeOverride (Ty.arr v) (Ty.obj .nil) = Except.ok Ty.never
      from rfl] at h
    exact Except.noConfusion h
  · intro h
    rw [show Merge Ty.fn (Ty.obj .nil) = Except.ok Ty.never from rfl] at h
    exact Except.noConfusion h

/-- Claim C10 counterexample.  `MergeExclusive` is a Merge operation, and
on the non-Record inputs `string`, `number` it does not fail: the
conditional's fallback branch returns the plain union `string | number`. -/
theorem mergeExclusive_non_record_cex :
    MergeExclusive (Ty.prim .pstring) (Ty.prim .pnumber) =
      Ty.union (.cons (Ty.prim .pstring) (.cons (Ty.prim .pnumber) .nil)) := by
  decide

end TypesExt
